import Mathlib

/-!
# FCFS waiting / turnaround calculator (`src/fcfs.c`)

A shallow embedding of `main` from `src/fcfs.c` and a verification of the
properties its specification states.

Modelling conventions.

* `int` is a 32-bit two's-complement integer.  Values are kept as `Int`; the
  result of every `int` addition is brought back into range by `wrap32`
  (C leaves signed overflow undefined; this is the result the usual targets
  produce, and no cell of an `int` array can hold a value outside the range
  anyway).  The loop counter `i` stays within `[0, n]` and is a `Nat`.
* The three `int[20]` locals are total maps `Nat → Int` accessed through
  bounds-checked `load` / `store`; an index `≥ 20` is the fault
  `Fault.outOfBounds`.  The contents the arrays have when `main` starts are
  indeterminate, so they are a parameter of the initial state.  Two ghost
  fields record which cells have been written and whether a cell was read
  before it was written.
* `float` is IEEE-754 binary32 with round-to-nearest, ties-to-even: a sign bit
  and a rational magnitude, every operation rounded to a 24-bit significand.
  The exponent range is not modelled (no magnitude that occurs in a fault-free
  run comes near it).  A division by zero has no numeric value and is the
  fault `Fault.divByZero`.
* Standard input is the sequence of already parsed integer tokens: the process
  count `n`, then the burst values, each a value of type `int`.  `scanf` on an
  exhausted input stores nothing.
* Standard output is a `String`.
-/

namespace Fcfs

/-! ## Machine integers -/

/-- Bring an integer into the range of a 32-bit two's-complement `int`. -/
def wrap32 (x : Int) : Int := (x + 2147483648) % 4294967296 - 2147483648

/-- The value is representable as a C `int`. -/
def isInt32 (x : Int) : Prop := -2147483648 ≤ x ∧ x ≤ 2147483647

instance (x : Int) : Decidable (isInt32 x) := by
  unfold isInt32; infer_instance

/-! ## Single-precision floating point -/

/-- Round a rational to the nearest integer, ties to the even neighbour. -/
def roundEven (y : ℚ) : ℤ :=
  let f := ⌊y⌋
  let r := y - f
  if r < 1 / 2 then f
  else if 1 / 2 < r then f + 1
  else if f % 2 = 0 then f else f + 1

/-- Floor of the binary logarithm of a natural number, by repeated halving;
the first argument bounds the number of halvings. -/
def log2Fuel : Nat → Nat → Nat
  | 0, _ => 0
  | f + 1, n => if n < 2 then 0 else log2Fuel f (n / 2) + 1

/-- Floor of the binary logarithm of a positive rational: the `e` with
`2 ^ e ≤ x < 2 ^ (e + 1)`. -/
def floorLog2 (x : ℚ) : ℤ :=
  let l : ℤ := (log2Fuel x.num.natAbs x.num.natAbs : ℤ) - (log2Fuel x.den x.den : ℤ)
  if (2 : ℚ) ^ l ≤ x then l else l - 1

/-- Round a magnitude to a 24-bit significand (nearest, ties to even).  For
`x ≠ 0` the exponent `e` is the one with `2 ^ (e + 23) ≤ |x| < 2 ^ (e + 24)`,
so `2 ^ e` is the spacing of binary32 numbers around `x`. -/
def rnd24 (x : ℚ) : ℚ :=
  if x = 0 then 0
  else
    let e : ℤ := floorLog2 |x| - 23
    (roundEven (x / (2 : ℚ) ^ e) : ℚ) * (2 : ℚ) ^ e

/-- A finite binary32 value: sign bit and magnitude. -/
structure F32 where
  neg : Bool
  mag : ℚ
deriving DecidableEq

namespace F32

/-- Positive zero, the value of the initialiser `= 0`. -/
def zero : F32 := ⟨false, 0⟩

/-- The real number a binary32 value stands for. -/
def toRat (x : F32) : ℚ := if x.neg then -x.mag else x.mag

/-- Round a rational to binary32; `zneg` is the sign bit used when the value
is exactly zero. -/
def ofRat (zneg : Bool) (x : ℚ) : F32 :=
  if x = 0 then ⟨zneg, 0⟩ else ⟨decide (x < 0), rnd24 |x|⟩

/-- Conversion `int → float`. -/
def ofInt (v : Int) : F32 := ofRat false (v : ℚ)

/-- Binary32 addition: the exact sum, rounded.  An exact zero sum is `+0`
unless both operands are `-0`. -/
def add (a b : F32) : F32 := ofRat (a.neg && b.neg) (a.toRat + b.toRat)

end F32

/-! ## Faults and program state -/

/-- The ways a run can go wrong. -/
inductive Fault where
  | outOfBounds
  | divByZero
deriving DecidableEq, Repr

/-- Binary32 division: the exact quotient of the magnitudes, rounded, with the
sign the exclusive or of the two sign bits. -/
def F32.div (a b : F32) : Except Fault F32 :=
  if b.mag = 0 then .error .divByZero
  else .ok ⟨a.neg != b.neg, rnd24 (a.mag / b.mag)⟩

/-- The three arrays declared at `fcfs.c:5`. -/
inductive Arr where
  | burst
  | waiting
  | turnaround
deriving DecidableEq, Repr

/-- Number of elements of each array (`int burst[20], waiting[20], turnaround[20]`). -/
def CAP : Nat := 20

/-- State of a run of `main`. -/
structure State where
  /-- contents of the arrays -/
  mem : Arr → Nat → Int
  /-- ghost: the cell has been written during this run -/
  written : Arr → Nat → Bool
  /-- ghost: some cell was read before it was written -/
  indet : Bool
  avg_wt : F32
  avg_tat : F32
  /-- tokens still unread on standard input -/
  stdin : List Int
  /-- text written to standard output so far -/
  out : String

namespace State

/-- State at entry of `main`: arrays hold whatever `g` says, `avg_wt` and
`avg_tat` are initialised to `0`, nothing printed. -/
def initial (g : Arr → Nat → Int) (tokens : List Int) : State :=
  { mem := g, written := fun _ _ => false, indet := false,
    avg_wt := F32.zero, avg_tat := F32.zero, stdin := tokens, out := "" }

/-- Read of `a[i]`. -/
def load (s : State) (a : Arr) (i : Nat) : Except Fault (Int × State) :=
  if i < CAP then
    .ok (s.mem a i, { s with indet := s.indet || !s.written a i })
  else .error .outOfBounds

/-- Assignment `a[i] = v`. -/
def store (s : State) (a : Arr) (i : Nat) (v : Int) : Except Fault State :=
  if i < CAP then
    .ok { s with
      mem := fun b j => if b = a ∧ j = i then v else s.mem b j
      written := fun b j => if b = a ∧ j = i then true else s.written b j }
  else .error .outOfBounds

/-- Output through `printf`. -/
def print (s : State) (t : String) : State := { s with out := s.out ++ t }

end State

/-! ## Formatting -/

/-- Conversion `%d`. -/
def fmtInt (v : Int) : String := toString v

/-- Two decimal digits with a leading zero. -/
def pad2 (k : Nat) : String := if k < 10 then "0" ++ toString k else toString k

/-- A sign and a magnitude in fixed notation with two decimals: the magnitude
rounded to hundredths, ties to even. -/
def fmtFixed2 (neg : Bool) (m : ℚ) : String :=
  let c := (roundEven (m * 100)).toNat
  (if neg then "-" else "") ++ toString (c / 100) ++ "." ++ pad2 (c % 100)

/-- Conversion `%.2f` of a `float` argument: its exact binary value, rounded
to hundredths (ties to even), printed with its sign bit. -/
def fmt2 (x : F32) : String := fmtFixed2 x.neg x.mag

/-! ## The program -/

/-- The loop `for (i = lo; i < n; i++) body`, given the number `k` of
iterations left and the current `i`. -/
def forLoop (body : Nat → State → Except Fault State) :
    Nat → Nat → State → Except Fault State
  | 0, _, s => .ok s
  | k + 1, i, s => (body i s).bind (forLoop body k (i + 1))

/-- Body of the input loop, `fcfs.c:13-16`. -/
def inputStep (i : Nat) (s : State) : Except Fault State :=
  let s1 := s.print ("P" ++ fmtInt (i + 1) ++ ": ")
  match s1.stdin with
  | [] => .ok s1
  | b :: rest => { s1 with stdin := rest }.store .burst i b

/-- Body of the waiting-time loop, `fcfs.c:22-24`. -/
def waitingStep (i : Nat) (s : State) : Except Fault State := do
  let (w, s1) ← s.load .waiting (i - 1)
  let (b, s2) ← s1.load .burst (i - 1)
  s2.store .waiting i (wrap32 (w + b))

/-- Body of the turnaround-time loop, `fcfs.c:27-29`. -/
def turnaroundStep (i : Nat) (s : State) : Except Fault State := do
  let (w, s1) ← s.load .waiting i
  let (b, s2) ← s1.load .burst i
  s2.store .turnaround i (wrap32 (w + b))

/-- Body of the report loop, `fcfs.c:34-40`. -/
def reportStep (i : Nat) (s : State) : Except Fault State := do
  let (b, s1) ← s.load .burst i
  let (w, s2) ← s1.load .waiting i
  let (t, s3) ← s2.load .turnaround i
  let s4 := s3.print ("P" ++ fmtInt (i + 1) ++ "\t" ++ fmtInt b ++ "\t\t" ++ fmtInt w
    ++ "\t\t" ++ fmtInt t ++ "\n")
  let (w', s5) ← s4.load .waiting i
  let s6 := { s5 with avg_wt := F32.add s5.avg_wt (F32.ofInt w') }
  let (t', s7) ← s6.load .turnaround i
  pure { s7 with avg_tat := F32.add s7.avg_tat (F32.ofInt t') }

/-- The function `main` of `fcfs.c`, run on process count `n` from a state whose
`stdin` holds the burst tokens.  `.ok s` is normal completion (`return 0`). -/
def run (n : Int) (s0 : State) : Except Fault State := do
  let s := s0.print "Enter number of processes: "
  let s := s.print "Enter Burst Time for each process:\n"
  let s ← forLoop inputStep n.toNat 0 s
  let s ← s.store .waiting 0 0
  let s ← forLoop waitingStep (n.toNat - 1) 1 s
  let s ← forLoop turnaroundStep n.toNat 0 s
  let s := s.print "\nProcess\tBurst Time\tWaiting Time\tTurnaround Time\n"
  let s ← forLoop reportStep n.toNat 0 s
  let a ← F32.div s.avg_wt (F32.ofInt n)
  let s := { s with avg_wt := a }
  let t ← F32.div s.avg_tat (F32.ofInt n)
  let s := { s with avg_tat := t }
  let s := s.print ("\nAverage Waiting Time = " ++ fmt2 s.avg_wt)
  let s := s.print ("\nAverage Turnaround Time = " ++ fmt2 s.avg_tat ++ "\n")
  pure s

/-- What a completed run leaves behind for `n` processes: the first `n` cells
of the three arrays, the two averages and the text printed. -/
structure Report where
  burst : List Int
  waiting : List Int
  turnaround : List Int
  avg_wt : F32
  avg_tat : F32
  out : String
deriving DecidableEq

/-- Observation of a final state. -/
def State.report (n : Nat) (s : State) : Report :=
  { burst := (List.range n).map (s.mem .burst)
    waiting := (List.range n).map (s.mem .waiting)
    turnaround := (List.range n).map (s.mem .turnaround)
    avg_wt := s.avg_wt, avg_tat := s.avg_tat, out := s.out }

/-- Run `main` on `n` and the burst tokens `B`, from arrays holding `g`. -/
def fcfs (g : Arr → Nat → Int) (n : Int) (B : List Int) : Except Fault State :=
  run n (State.initial g (B))

/-! ## Closed forms of what a run computes

These describe the state a run ends in and serve the proofs; the statements
about the program further down are about `fcfs` itself. -/

/-- Value left in `waiting[i]`. -/
def waitingVal (B : List Int) : Nat → Int
  | 0 => 0
  | i + 1 => wrap32 (waitingVal B i + B.getD i 0)

/-- Value left in `turnaround[i]`. -/
def turnaroundVal (B : List Int) (i : Nat) : Int := wrap32 (waitingVal B i + B.getD i 0)

/-- The running `float` total after the first `j` values of `f` were added to `+0`. -/
def accF (f : Nat → Int) : Nat → F32
  | 0 => F32.zero
  | j + 1 => F32.add (accF f j) (F32.ofInt (f j))

/-- The binary32 quotient of a running total by a positive process count. -/
def avgF (acc : F32) (N : Nat) : F32 := ⟨acc.neg, rnd24 (acc.mag / (N : ℚ))⟩

/-- The binary32 value that is exactly the integer `z`. -/
def exactF (z : Int) : F32 := ⟨decide (z < 0), |(z : ℚ)|⟩

/-- The state in which the first `jb` cells of `burst`, `jw` cells of `waiting`
and `jt` cells of `turnaround` have been filled, `jr` report rows have been
accumulated and `o` has been printed. -/
def stAt (g : Arr → Nat → Int) (B : List Int) (jb jw jt jr : Nat) (o : String) : State :=
  { mem := fun a x =>
      match a with
      | .burst => if x < jb then B.getD x 0 else g .burst x
      | .waiting => if x < jw then waitingVal B x else g .waiting x
      | .turnaround => if x < jt then turnaroundVal B x else g .turnaround x
    written := fun a x =>
      match a with
      | .burst => decide (x < jb)
      | .waiting => decide (x < jw)
      | .turnaround => decide (x < jt)
    indet := false
    avg_wt := accF (waitingVal B) jr
    avg_tat := accF (turnaroundVal B) jr
    stdin := B.drop jb
    out := o }

/-- The two prompts printed before the input loop. -/
def bannerText : String := "Enter number of processes: " ++ "Enter Burst Time for each process:\n"

/-- The prompts `P1: ` … `Pj: ` of the input loop. -/
def promptsText : Nat → String
  | 0 => ""
  | j + 1 => promptsText j ++ ("P" ++ fmtInt (j + 1) ++ ": ")

/-- The header of the table, `fcfs.c:32`. -/
def headerText : String := "\nProcess\tBurst Time\tWaiting Time\tTurnaround Time\n"

/-- Report row of process `j + 1` for burst `b`, waiting time `w`, turnaround time `t`. -/
def rowOf (j : Nat) (b w t : Int) : String :=
  "P" ++ fmtInt (j + 1) ++ "\t" ++ fmtInt b ++ "\t\t" ++ fmtInt w ++ "\t\t" ++ fmtInt t ++ "\n"

/-- Report row `j` of a run on `B`. -/
def rowText (B : List Int) (j : Nat) : String :=
  rowOf j (B.getD j 0) (waitingVal B j) (turnaroundVal B j)

/-- The first `j` report rows. -/
def rowsText (B : List Int) : Nat → String
  | 0 => ""
  | j + 1 => rowsText B j ++ rowText B j

/-- The two closing lines for the averages `a` and `t`. -/
def averagesText (a t : F32) : String :=
  ("\nAverage Waiting Time = " ++ fmt2 a) ++ ("\nAverage Turnaround Time = " ++ fmt2 t ++ "\n")

/-- The state a run on `N` processes with bursts `B` ends in. -/
def finalState (g : Arr → Nat → Int) (B : List Int) (N : Nat) : State :=
  let a := avgF (accF (waitingVal B) N) N
  let t := avgF (accF (turnaroundVal B) N) N
  { stAt g B N N N N
      (bannerText ++ promptsText N ++ headerText ++ rowsText B N ++ averagesText a t) with
    avg_wt := a, avg_tat := t }

/-- What `State.report` sees of a final state, free of the entry contents of the arrays. -/
def closedReport (B : List Int) (N : Nat) : Report :=
  { burst := (List.range N).map (fun i => B.getD i 0)
    waiting := (List.range N).map (waitingVal B)
    turnaround := (List.range N).map (turnaroundVal B)
    avg_wt := avgF (accF (waitingVal B) N) N
    avg_tat := avgF (accF (turnaroundVal B) N) N
    out := bannerText ++ promptsText N ++ headerText ++ rowsText B N
      ++ averagesText (avgF (accF (waitingVal B) N) N) (avgF (accF (turnaroundVal B) N) N) }

/-- Inputs used in the concrete evaluations: arrays that hold zero at entry. -/
def g0 : Arr → Nat → Int := fun _ _ => 0

/-- Entry contents of the arrays that differ from `g0` in every cell. -/
def g1 : Arr → Nat → Int := fun _ i => 1000 + i

/-! ## Exit status and the recurrences of the specification -/

/-- Exit status of a run: `main` has the single exit `return 0` (`fcfs.c:49`); a
run stopped by a fault does not reach it. -/
def exitStatus (r : Except Fault State) : Option Int :=
  match r with
  | .ok _ => some 0
  | .error _ => none

/-- The waiting times of the specification's algorithm (`waiting[0] = 0`,
`waiting[i] = waiting[i-1] + burst[i-1]`) over the unbounded integers. -/
def idealWaiting (B : List Int) : Nat → Int
  | 0 => 0
  | i + 1 => idealWaiting B i + B.getD i 0

/-- The turnaround times of the specification's algorithm
(`turnaround[i] = waiting[i] + burst[i]`) over the unbounded integers. -/
def idealTurnaround (B : List Int) (i : Nat) : Int := idealWaiting B i + B.getD i 0

/-! ## Machine integers: lemmas -/

theorem wrap32_of_isInt32 {x : Int} (h : isInt32 x) : wrap32 x = x := by
  unfold isInt32 at h
  unfold wrap32
  omega

theorem isInt32_wrap32 (x : Int) : isInt32 (wrap32 x) := by
  unfold isInt32 wrap32
  omega

theorem wrap32_add_wrap32 (a b : Int) : wrap32 (wrap32 a + b) = wrap32 (a + b) := by
  unfold wrap32
  omega

theorem wrap32_eq_iff (x : Int) : wrap32 x = x ↔ isInt32 x := by
  unfold isInt32 wrap32
  omega

/-! ## Rounding: lemmas -/

theorem log2Fuel_eq (f n : Nat) (h : n ≤ f) : log2Fuel f n = Nat.log 2 n := by
  induction f generalizing n with
  | zero =>
    have : n = 0 := by omega
    subst this
    simp [log2Fuel]
  | succ f ih =>
    rw [log2Fuel]
    split_ifs with h2
    · exact (Nat.log_of_lt h2).symm
    · rw [ih (n / 2) (by omega)]
      exact (Nat.log_of_one_lt_of_le (by norm_num) (by omega)).symm

theorem floorLog2_eq (x : ℚ) (hx : 0 < x) : floorLog2 x = Int.log 2 x := by
  have hnum : 0 < x.num := Rat.num_pos.mpr hx
  have hden : 0 < x.den := x.den_pos
  set a := x.num.natAbs with ha
  set d := x.den with hd
  have ha0 : a ≠ 0 := by omega
  have hxa : x = (a : ℚ) / (d : ℚ) := by
    have h1 : ((a : ℕ) : ℤ) = x.num := by rw [ha]; exact Int.natAbs_of_nonneg hnum.le
    have h2 : (a : ℚ) = (x.num : ℚ) := by exact_mod_cast congrArg (Int.cast : ℤ → ℚ) h1
    rw [h2, hd]
    exact (Rat.num_div_den x).symm
  have hdq : (0 : ℚ) < (d : ℚ) := by exact_mod_cast hden
  have la1 : 2 ^ Nat.log 2 a ≤ a := Nat.pow_log_le_self 2 ha0
  have la2 : a < 2 ^ (Nat.log 2 a + 1) := Nat.lt_pow_succ_log_self (by norm_num) a
  have ld1 : 2 ^ Nat.log 2 d ≤ d := Nat.pow_log_le_self 2 (by omega)
  have ld2 : d < 2 ^ (Nat.log 2 d + 1) := Nat.lt_pow_succ_log_self (by norm_num) d
  have qa1 : (2 : ℚ) ^ Nat.log 2 a ≤ (a : ℚ) := by exact_mod_cast la1
  have qa2 : (a : ℚ) < (2 : ℚ) ^ (Nat.log 2 a + 1) := by exact_mod_cast la2
  have qd1 : (2 : ℚ) ^ Nat.log 2 d ≤ (d : ℚ) := by exact_mod_cast ld1
  have qd2 : (d : ℚ) < (2 : ℚ) ^ (Nat.log 2 d + 1) := by exact_mod_cast ld2
  have pa : (0 : ℚ) < (2 : ℚ) ^ Nat.log 2 a := pow_pos (by norm_num) _
  have pd : (0 : ℚ) < (2 : ℚ) ^ Nat.log 2 d := pow_pos (by norm_num) _
  unfold floorLog2
  simp only
  rw [← ha, ← hd, log2Fuel_eq a a (le_refl a), log2Fuel_eq d d (le_refl d)]
  set l : ℤ := (Nat.log 2 a : ℤ) - (Nat.log 2 d : ℤ) with hl
  have hpl : (2 : ℚ) ^ l = (2 : ℚ) ^ Nat.log 2 a / (2 : ℚ) ^ Nat.log 2 d := by
    rw [hl, zpow_sub₀ (by norm_num), zpow_natCast, zpow_natCast]
  have hup : x < (2 : ℚ) ^ (l + 1) := by
    rw [zpow_add₀ (by norm_num), hpl, hxa, zpow_one, div_mul_eq_mul_div, div_lt_div_iff₀ hdq pd]
    rw [pow_succ] at qa2
    nlinarith
  have hlo : (2 : ℚ) ^ (l - 1) < x := by
    rw [zpow_sub₀ (by norm_num), hpl, hxa, zpow_one, div_div, div_lt_div_iff₀ (by positivity) hdq]
    rw [pow_succ] at qd2
    nlinarith
  split_ifs with h
  · symm
    apply le_antisymm
    · have := (Int.lt_zpow_iff_log_lt (b := 2) (by norm_num) hx (x := l + 1)).1
        (by exact_mod_cast hup)
      omega
    · exact (Int.zpow_le_iff_le_log (b := 2) (by norm_num) hx).1 (by exact_mod_cast h)
  · symm
    apply le_antisymm
    · have := (Int.lt_zpow_iff_log_lt (b := 2) (by norm_num) hx (x := l)).1
        (by exact_mod_cast (not_le.mp h))
      omega
    · exact (Int.zpow_le_iff_le_log (b := 2) (by norm_num) hx).1 (by exact_mod_cast hlo.le)

theorem int_log_two_eq (x : ℚ) (hx : 0 < x) (n : ℤ) (h1 : (2 : ℚ) ^ n ≤ x)
    (h2 : x < (2 : ℚ) ^ (n + 1)) : Int.log 2 x = n := by
  have a1 : n ≤ Int.log 2 x := by
    rw [← Int.zpow_le_iff_le_log (by norm_num) hx]
    exact_mod_cast h1
  have a2 : Int.log 2 x < n + 1 := by
    rw [← Int.lt_zpow_iff_log_lt (by norm_num) hx]
    exact_mod_cast h2
  omega

theorem rnd24_def (x : ℚ) :
    rnd24 x = if x = 0 then 0
      else (roundEven (x / (2 : ℚ) ^ (Int.log 2 |x| - 23)) : ℚ) * (2 : ℚ) ^ (Int.log 2 |x| - 23) := by
  unfold rnd24
  split_ifs with h
  · rfl
  · simp only
    rw [floorLog2_eq _ (abs_pos.mpr h)]

theorem roundEven_intCast (z : ℤ) : roundEven (z : ℚ) = z := by
  simp [roundEven]

theorem roundEven_err (y : ℚ) : |(roundEven y : ℚ) - y| ≤ 1 / 2 := by
  have h0 : (⌊y⌋ : ℚ) ≤ y := Int.floor_le y
  have h1 : y < ⌊y⌋ + 1 := Int.lt_floor_add_one y
  unfold roundEven
  simp only
  split_ifs with h2 h3 h4
  · rw [abs_le]; constructor <;> linarith
  · rw [abs_le]; push_cast; constructor <;> linarith
  · rw [abs_le]; constructor <;> linarith
  · rw [abs_le]; push_cast; constructor <;> linarith

theorem roundEven_bounds (y : ℚ) : ⌊y⌋ ≤ roundEven y ∧ roundEven y ≤ ⌊y⌋ + 1 := by
  unfold roundEven
  simp only
  split_ifs <;> constructor <;> omega

theorem roundEven_eq_of_abs_lt (y : ℚ) (c : ℤ) (h : |y - c| < 1 / 2) : roundEven y = c := by
  have h' := abs_lt.mp h
  have hf1 : c - 1 ≤ ⌊y⌋ := by
    rw [Int.le_floor]; push_cast; linarith
  have hf2 : ⌊y⌋ ≤ c := by
    have : ⌊y⌋ < c + 1 := by rw [Int.floor_lt]; push_cast; linarith
    omega
  have h0 : (⌊y⌋ : ℚ) ≤ y := Int.floor_le y
  have h1 : y < ⌊y⌋ + 1 := Int.lt_floor_add_one y
  rcases (show ⌊y⌋ = c ∨ ⌊y⌋ = c - 1 by omega) with e | e
  · unfold roundEven
    simp only
    rw [e, if_pos (by linarith)]
  · unfold roundEven
    simp only
    have hn : ¬ (y - ((c - 1 : ℤ) : ℚ) < 1 / 2) := by push_cast; linarith
    have hp : (1 : ℚ) / 2 < y - ((c - 1 : ℤ) : ℚ) := by push_cast; linarith
    rw [e, if_neg hn, if_pos hp]
    ring

theorem rnd24_zero : rnd24 0 = 0 := by simp [rnd24]

theorem rnd24_exact (x : ℚ) (z : ℤ) (h : x / (2 : ℚ) ^ (Int.log 2 |x| - 23) = z) :
    rnd24 x = x := by
  rw [rnd24_def]
  split_ifs with h0
  · exact h0.symm
  · rw [h, roundEven_intCast, ← h]
    have : (2 : ℚ) ^ (Int.log 2 |x| - 23) ≠ 0 := zpow_ne_zero _ (by norm_num)
    field_simp

theorem rnd24_natCast (m : ℕ) (h : m ≤ 2 ^ 24) : rnd24 (m : ℚ) = m := by
  rcases Nat.eq_zero_or_pos m with rfl | hpos
  · simp [rnd24]
  rcases Nat.lt_or_ge m (2 ^ 24) with hlt | hge
  · have hL : Nat.log 2 m < 24 := (Nat.lt_pow_iff_log_lt (by norm_num) (by omega)).1 hlt
    obtain ⟨k, hk⟩ : ∃ k : ℕ, Nat.log 2 m + k = 23 := ⟨23 - Nat.log 2 m, by omega⟩
    apply rnd24_exact _ ((m * 2 ^ k : ℕ) : ℤ)
    rw [Nat.abs_cast, Int.log_natCast]
    have he : ((Nat.log 2 m : ℕ) : ℤ) - 23 = -(k : ℤ) := by omega
    rw [he, zpow_neg, zpow_natCast]
    push_cast
    field_simp
  · have hm : m = 2 ^ 24 := le_antisymm h hge
    subst hm
    apply rnd24_exact _ ((2 ^ 23 : ℕ) : ℤ)
    rw [Nat.abs_cast, Int.log_natCast, Nat.log_pow (by norm_num)]
    norm_num

theorem rnd24_err (x : ℚ) (hx : 0 < x) : |rnd24 x - x| ≤ x / 2 ^ 24 := by
  rw [rnd24_def, if_neg hx.ne', abs_of_pos hx]
  set e : ℤ := Int.log 2 x - 23 with he
  have hp : (0 : ℚ) < (2 : ℚ) ^ e := zpow_pos (by norm_num) _
  have h1 : ((2 : ℕ) : ℚ) ^ Int.log 2 x ≤ x := Int.zpow_log_le_self (by norm_num) hx
  have h2 : (2 : ℚ) ^ Int.log 2 x = (2 : ℚ) ^ e * 2 ^ 23 := by
    rw [he, zpow_sub₀ (by norm_num)]
    norm_num
  have h3 := roundEven_err (x / (2 : ℚ) ^ e)
  have h4 : (roundEven (x / (2 : ℚ) ^ e) : ℚ) * (2 : ℚ) ^ e - x
      = ((roundEven (x / (2 : ℚ) ^ e) : ℚ) - x / (2 : ℚ) ^ e) * (2 : ℚ) ^ e := by
    field_simp
  rw [h4, abs_mul, abs_of_pos hp]
  push_cast at h1
  rw [h2] at h1
  calc |(roundEven (x / (2 : ℚ) ^ e) : ℚ) - x / (2 : ℚ) ^ e| * (2 : ℚ) ^ e
      ≤ 1 / 2 * (2 : ℚ) ^ e := by
        exact mul_le_mul_of_nonneg_right h3 hp.le
    _ = (2 : ℚ) ^ e * 2 ^ 23 / 2 ^ 24 := by norm_num; ring
    _ ≤ x / 2 ^ 24 := by
        apply div_le_div_of_nonneg_right h1 (by norm_num)

theorem rnd24_pos (x : ℚ) (hx : 0 < x) : 0 < rnd24 x := by
  have h := abs_le.mp (rnd24_err x hx)
  have : x / 2 ^ 24 < x := by
    rw [div_lt_iff₀ (by norm_num)]
    linarith
  linarith

/-- Exactness on every number with a significand of at most 24 bits. -/
theorem rnd24_dyadic (z : ℕ) (e : ℤ) (hz : z ≤ 2 ^ 24) :
    rnd24 ((z : ℚ) * (2 : ℚ) ^ e) = (z : ℚ) * (2 : ℚ) ^ e := by
  rcases Nat.eq_zero_or_pos z with rfl | hpos
  · simp [rnd24]
  have hp : (0 : ℚ) < (2 : ℚ) ^ e := zpow_pos (by norm_num) _
  have hx : (0 : ℚ) < (z : ℚ) * (2 : ℚ) ^ e := mul_pos (by exact_mod_cast hpos) hp
  set L := Nat.log 2 z with hL
  have hlo : 2 ^ L ≤ z := Nat.pow_log_le_self 2 (by omega)
  have hhi : z < 2 ^ (L + 1) := Nat.lt_pow_succ_log_self (by norm_num) z
  have hlog : Int.log 2 ((z : ℚ) * (2 : ℚ) ^ e) = (L : ℤ) + e := by
    apply int_log_two_eq _ hx
    · rw [zpow_add₀ (by norm_num), zpow_natCast]
      apply mul_le_mul_of_nonneg_right _ hp.le
      exact_mod_cast hlo
    · rw [show (L : ℤ) + e + 1 = ((L + 1 : ℕ) : ℤ) + e by push_cast; ring,
        zpow_add₀ (by norm_num), zpow_natCast]
      apply mul_lt_mul_of_pos_right _ hp
      exact_mod_cast hhi
  rcases Nat.lt_or_ge z (2 ^ 24) with hlt | hge
  · have hL24 : L < 24 := (Nat.lt_pow_iff_log_lt (by norm_num) (by omega)).1 hlt
    obtain ⟨k, hk⟩ : ∃ k : ℕ, L + k = 23 := ⟨23 - L, by omega⟩
    apply rnd24_exact _ ((z * 2 ^ k : ℕ) : ℤ)
    rw [abs_of_pos hx, hlog]
    have he : (L : ℤ) + e - 23 = e - (k : ℤ) := by omega
    rw [he, zpow_sub₀ (by norm_num), zpow_natCast]
    push_cast
    field_simp
    ring
  · have hm : z = 2 ^ 24 := le_antisymm hz hge
    have hL' : L = 24 := by rw [hL, hm]; exact Nat.log_pow (by norm_num) 24
    apply rnd24_exact _ ((2 ^ 23 : ℕ) : ℤ)
    rw [abs_of_pos hx, hlog, hL', hm]
    have he : ((24 : ℕ) : ℤ) + e - 23 = e + 1 := by push_cast; ring
    rw [he, zpow_add₀ (by norm_num)]
    push_cast
    field_simp
    ring

theorem rnd24_div_pow_two (s : ℕ) (k : ℕ) (hs : s ≤ 2 ^ 24) :
    rnd24 ((s : ℚ) / (2 : ℚ) ^ k) = (s : ℚ) / (2 : ℚ) ^ k := by
  have h := rnd24_dyadic s (-(k : ℤ)) hs
  rw [zpow_neg, zpow_natCast] at h
  simpa [div_eq_mul_inv] using h

theorem rnd24_form (x : ℚ) (hx : 0 < x) :
    ∃ z : ℕ, z ≤ 2 ^ 24 ∧ rnd24 x = (z : ℚ) * (2 : ℚ) ^ (Int.log 2 x - 23) := by
  set e : ℤ := Int.log 2 x - 23 with he
  have hp : (0 : ℚ) < (2 : ℚ) ^ e := zpow_pos (by norm_num) _
  have hy0 : 0 < x / (2 : ℚ) ^ e := div_pos hx hp
  have h2 : x < ((2 : ℕ) : ℚ) ^ (Int.log 2 x + 1) := Int.lt_zpow_succ_log_self (by norm_num) x
  have h3 : (2 : ℚ) ^ (Int.log 2 x + 1) = (2 : ℚ) ^ e * 2 ^ 24 := by
    rw [he, show Int.log 2 x + 1 = (Int.log 2 x - 23) + 24 by ring, zpow_add₀ (by norm_num)]
    norm_num
  have hy1 : x / (2 : ℚ) ^ e < 2 ^ 24 := by
    rw [div_lt_iff₀ hp]
    push_cast at h2
    rw [h3] at h2
    linarith
  have hb := roundEven_bounds (x / (2 : ℚ) ^ e)
  have hf0 : 0 ≤ ⌊x / (2 : ℚ) ^ e⌋ := Int.floor_nonneg.mpr hy0.le
  have hf1 : ⌊x / (2 : ℚ) ^ e⌋ < 2 ^ 24 := by
    rw [Int.floor_lt]
    exact_mod_cast hy1
  refine ⟨(roundEven (x / (2 : ℚ) ^ e)).toNat, ?_, ?_⟩
  · have : ((roundEven (x / (2 : ℚ) ^ e)).toNat : ℤ) ≤ 2 ^ 24 := by
      rw [Int.toNat_of_nonneg (by omega)]
      omega
    exact_mod_cast this
  · rw [rnd24_def, if_neg hx.ne', abs_of_pos hx, ← he]
    congr 1
    have : ((roundEven (x / (2 : ℚ) ^ e)).toNat : ℤ) = roundEven (x / (2 : ℚ) ^ e) :=
      Int.toNat_of_nonneg (by omega)
    exact_mod_cast this.symm

theorem rnd24_idem (x : ℚ) (hx : 0 < x) : rnd24 (rnd24 x) = rnd24 x := by
  obtain ⟨z, hz, h⟩ := rnd24_form x hx
  rw [h]
  exact rnd24_dyadic z _ hz

/-- Rounding the quotient to binary32 first does not change its rendering to
two decimals, for `N ≤ 20` and a total of magnitude below `2 ^ 24 / 200`. -/
theorem roundEven_rnd24_quot (N s : ℕ) (h1 : 1 ≤ N) (h20 : N ≤ 20) (hs : 200 * s < 2 ^ 24) :
    roundEven (rnd24 ((s : ℚ) / N) * 100) = roundEven ((s : ℚ) / N * 100) := by
  have hN : (0 : ℚ) < (N : ℚ) := by exact_mod_cast h1
  by_cases hpow : N = 1 ∨ N = 2 ∨ N = 4 ∨ N = 8 ∨ N = 16
  · have hs' : s ≤ 2 ^ 24 := by omega
    rcases hpow with h | h | h | h | h <;> subst h
    · have := rnd24_div_pow_two s 0 hs'; simp at this ⊢; rw [this]
    · have := rnd24_div_pow_two s 1 hs'; norm_num at this ⊢; rw [this]
    · have := rnd24_div_pow_two s 2 hs'; norm_num at this ⊢; rw [this]
    · have := rnd24_div_pow_two s 3 hs'; norm_num at this ⊢; rw [this]
    · have := rnd24_div_pow_two s 4 hs'; norm_num at this ⊢; rw [this]
  · rcases Nat.eq_zero_or_pos s with rfl | hspos
    · simp [rnd24_zero]
    have hq : (0 : ℚ) < (s : ℚ) / N := div_pos (by exact_mod_cast hspos) hN
    set c := roundEven ((s : ℚ) / N * 100) with hc
    apply roundEven_eq_of_abs_lt
    have e1 := roundEven_err ((s : ℚ) / N * 100)
    rw [← hc] at e1
    have e2 := rnd24_err _ hq
    -- the distance of `100 s / N` to `c` is a multiple of `1 / N` below `1 / 2`
    have hint : |(2 * c * N - 200 * s : ℤ)| ≤ N := by
      have : |((2 * c * N - 200 * s : ℤ) : ℚ)| ≤ (N : ℚ) := by
        have h3 : ((2 * c * N - 200 * s : ℤ) : ℚ) = (c - (s : ℚ) / N * 100) * (2 * N) := by
          push_cast; field_simp; ring
        rw [h3, abs_mul, abs_of_pos (by linarith : (0 : ℚ) < 2 * N)]
        calc |(c : ℚ) - (s : ℚ) / N * 100| * (2 * N) ≤ 1 / 2 * (2 * N) :=
              mul_le_mul_of_nonneg_right e1 (by linarith)
          _ = N := by ring
      exact_mod_cast this
    have hstrict : |(2 * c * N - 200 * s : ℤ)| ≤ N - 1 := by
      rw [abs_le] at hint ⊢
      obtain ⟨hl, hr⟩ := hint
      have hNe : N = 3 ∨ N = 5 ∨ N = 6 ∨ N = 7 ∨ N = 9 ∨ N = 10 ∨ N = 11 ∨ N = 12 ∨ N = 13 ∨
          N = 14 ∨ N = 15 ∨ N = 17 ∨ N = 18 ∨ N = 19 ∨ N = 20 := by omega
      rcases hNe with h | h | h | h | h | h | h | h | h | h | h | h | h | h | h <;> subst h <;>
        constructor <;> push_cast at hl hr ⊢ <;> omega
    have hdist : |(s : ℚ) / N * 100 - c| ≤ 1 / 2 - 1 / (2 * N) := by
      have : |((2 * c * N - 200 * s : ℤ) : ℚ)| ≤ (N : ℚ) - 1 := by exact_mod_cast hstrict
      have h3 : ((2 * c * N - 200 * s : ℤ) : ℚ) = (c - (s : ℚ) / N * 100) * (2 * N) := by
        push_cast; field_simp; ring
      rw [h3, abs_mul, abs_of_pos (by linarith : (0 : ℚ) < 2 * N)] at this
      rw [abs_sub_comm]
      have h4 : |(c : ℚ) - (s : ℚ) / N * 100| ≤ ((N : ℚ) - 1) / (2 * N) := by
        rw [le_div_iff₀ (by linarith)]; exact this
      calc |(c : ℚ) - (s : ℚ) / N * 100| ≤ ((N : ℚ) - 1) / (2 * N) := h4
        _ = 1 / 2 - 1 / (2 * N) := by field_simp
    have herr : |rnd24 ((s : ℚ) / N) * 100 - (s : ℚ) / N * 100| < 1 / (2 * N) := by
      rw [← sub_mul, abs_mul, abs_of_pos (by norm_num : (0 : ℚ) < 100)]
      have h5 : (s : ℚ) / N / 2 ^ 24 * 100 < 1 / (2 * N) := by
        have h6 : (s : ℚ) / N / 2 ^ 24 * 100 = (s * 100 : ℚ) / (N * 2 ^ 24) := by
          field_simp
        have h7 : ((200 * s : ℕ) : ℚ) < ((2 ^ 24 : ℕ) : ℚ) := by exact_mod_cast hs
        push_cast at h7
        rw [h6, div_lt_div_iff₀ (by positivity) (by positivity)]
        nlinarith
      calc |rnd24 ((s : ℚ) / N) - (s : ℚ) / N| * 100 ≤ (s : ℚ) / N / 2 ^ 24 * 100 :=
            mul_le_mul_of_nonneg_right e2 (by norm_num)
        _ < 1 / (2 * N) := h5
    calc |rnd24 ((s : ℚ) / N) * 100 - c|
        = |(rnd24 ((s : ℚ) / N) * 100 - (s : ℚ) / N * 100) + ((s : ℚ) / N * 100 - c)| := by
          congr 1; ring
      _ ≤ |rnd24 ((s : ℚ) / N) * 100 - (s : ℚ) / N * 100| + |(s : ℚ) / N * 100 - c| :=
          abs_add _ _
      _ < 1 / (2 * N) + (1 / 2 - 1 / (2 * N)) := by linarith
      _ = 1 / 2 := by ring

/-! ## Exact binary32 arithmetic on small integers -/

theorem rnd24_abs_intCast (z : Int) (h : |z| ≤ 2 ^ 24) : rnd24 |(z : ℚ)| = |(z : ℚ)| := by
  have h1 : |(z : ℚ)| = ((z.natAbs : ℕ) : ℚ) := by
    rw [Nat.cast_natAbs, Int.cast_abs]
  rw [h1]
  apply rnd24_natCast
  have : ((z.natAbs : ℕ) : ℤ) ≤ 2 ^ 24 := by rw [Int.natCast_natAbs]; exact h
  exact_mod_cast this

theorem ofRat_intCast (z : Int) (h : |z| ≤ 2 ^ 24) : F32.ofRat false (z : ℚ) = exactF z := by
  unfold F32.ofRat exactF
  by_cases hz : z = 0
  · subst hz; simp
  · have : (z : ℚ) ≠ 0 := by exact_mod_cast hz
    rw [if_neg this, rnd24_abs_intCast z h]
    simp

theorem ofInt_exact (z : Int) (h : |z| ≤ 2 ^ 24) : F32.ofInt z = exactF z :=
  ofRat_intCast z h

theorem toRat_exactF (z : Int) : (exactF z).toRat = z := by
  unfold exactF F32.toRat
  by_cases hz : z < 0
  · have : (z : ℚ) < 0 := by exact_mod_cast hz
    simp [hz, abs_of_neg this]
  · have : (0 : ℚ) ≤ z := by exact_mod_cast (not_lt.mp hz)
    simp [hz, abs_of_nonneg this]

theorem add_exactF (a b : Int) (h : |a + b| ≤ 2 ^ 24) :
    F32.add (exactF a) (exactF b) = exactF (a + b) := by
  unfold F32.add
  rw [toRat_exactF, toRat_exactF]
  by_cases hz : a + b = 0
  · have hq : (a : ℚ) + (b : ℚ) = 0 := by exact_mod_cast hz
    have hs : (decide (a < 0) && decide (b < 0)) = false := by
      by_cases ha : a < 0 <;> by_cases hb : b < 0 <;> simp [ha, hb]
      omega
    simp [F32.ofRat, hq, exactF, hz, hs]
  · have h2 := ofRat_intCast (a + b) h
    have hq : ((a + b : Int) : ℚ) ≠ 0 := by exact_mod_cast hz
    rw [← h2]
    simp only [F32.ofRat, if_neg hq]
    push_cast at hq
    push_cast
    rw [if_neg hq]

theorem abs_sum_range_le (f : Nat → Int) (M : Int) (j : Nat) (hf : ∀ i, i < j → |f i| ≤ M) :
    |∑ i in Finset.range j, f i| ≤ j * M := by
  induction j with
  | zero => simp
  | succ k ih =>
    rw [Finset.sum_range_succ]
    have h1 := ih (fun i hi => hf i (by omega))
    have h2 := hf k (by omega)
    have h3 := abs_add (∑ i in Finset.range k, f i) (f k)
    push_cast
    linarith

theorem accF_exact (f : Nat → Int) (M : Int) (j : Nat) (hf : ∀ i, i < j → |f i| ≤ M)
    (hM : j * M ≤ 2 ^ 24) : accF f j = exactF (∑ i in Finset.range j, f i) := by
  have hbound : ∀ k, k ≤ j → |∑ i in Finset.range k, f i| ≤ k * M := by
    intro k
    induction k with
    | zero => intro _; simp
    | succ k ih =>
      intro hk
      rw [Finset.sum_range_succ]
      have h1 := ih (by omega)
      have h2 := hf k (by omega)
      have h3 := abs_add (∑ i in Finset.range k, f i) (f k)
      push_cast
      linarith
  have hM0 : 0 ≤ M ∨ j = 0 := by
    rcases Nat.eq_zero_or_pos j with h | h
    · exact Or.inr h
    · exact Or.inl (le_trans (abs_nonneg _) (hf 0 h))
  have hle : ∀ k : Nat, k ≤ j → (k : Int) * M ≤ 2 ^ 24 := by
    intro k hk
    rcases hM0 with h | h
    · have : (k : Int) * M ≤ j * M := by
        apply mul_le_mul_of_nonneg_right _ h
        exact_mod_cast hk
      linarith
    · subst h
      have : k = 0 := by omega
      subst this
      simp
  have main : ∀ k, k ≤ j → accF f k = exactF (∑ i in Finset.range k, f i) := by
    intro k
    induction k with
    | zero => intro _; simp [accF, exactF, F32.zero]
    | succ k ih =>
      intro hk
      have hfk : |f k| ≤ 2 ^ 24 := by
        have h1 := hf k (by omega)
        have h2 := hle 1 (by omega)
        simp at h2
        linarith
      rw [accF, ih (by omega), ofInt_exact _ hfk, Finset.sum_range_succ]
      apply add_exactF
      rw [← Finset.sum_range_succ]
      exact le_trans (hbound (k + 1) hk) (hle (k + 1) hk)
  exact main j (le_refl j)

theorem avgF_exactF (s : Int) (N : Nat) (h1 : 1 ≤ N) :
    avgF (exactF s) N = F32.ofRat false ((s : ℚ) / N) := by
  have hN : (0 : ℚ) < (N : ℚ) := by exact_mod_cast h1
  unfold avgF exactF F32.ofRat
  by_cases hs : s = 0
  · subst hs; simp [rnd24_zero]
  · have hq : (s : ℚ) ≠ 0 := by exact_mod_cast hs
    have hd : (s : ℚ) / N ≠ 0 := div_ne_zero hq hN.ne'
    rw [if_neg hd, abs_div, abs_of_pos hN]
    congr 1
    by_cases hneg : s < 0
    · have : (s : ℚ) / N < 0 := div_neg_of_neg_of_pos (by exact_mod_cast hneg) hN
      simp [hneg, this]
    · have : ¬ ((s : ℚ) / N < 0) := by
        have : (0 : ℚ) ≤ (s : ℚ) / N := div_nonneg (by exact_mod_cast (not_lt.mp hneg)) hN.le
        exact not_lt.mpr this
      simp [hneg, this]

theorem ofRat_err (b : Bool) (q : ℚ) : |(F32.ofRat b q).toRat - q| ≤ |q| / 2 ^ 24 := by
  unfold F32.ofRat
  by_cases hq : q = 0
  · subst hq; cases b <;> simp [F32.toRat]
  · rw [if_neg hq]
    have hpos : 0 < |q| := abs_pos.mpr hq
    have h := rnd24_err |q| hpos
    by_cases hneg : q < 0
    · simp only [F32.toRat, hneg, decide_True, if_true]
      rw [abs_of_neg hneg] at h ⊢
      rw [show -rnd24 (-q) - q = -(rnd24 (-q) - -q) by ring, abs_neg]
      exact h
    · simp only [F32.toRat, hneg, decide_False]
      rw [abs_of_nonneg (not_lt.mp hneg)] at h ⊢
      simpa using h

theorem fmt2_avgF_exactF (z : Int) (N : Nat) (h1 : 1 ≤ N) (h20 : N ≤ 20)
    (hz : 200 * |z| < 2 ^ 24) :
    fmt2 (avgF (exactF z) N) = fmtFixed2 (decide ((z : ℚ) < 0)) |(z : ℚ) / N| := by
  have hN : (0 : ℚ) < (N : ℚ) := by exact_mod_cast h1
  have habs : |(z : ℚ)| = ((z.natAbs : ℕ) : ℚ) := by
    rw [Nat.cast_natAbs, Int.cast_abs]
  have hs : 200 * z.natAbs < 2 ^ 24 := by
    have : (200 : Int) * (z.natAbs : Int) < 2 ^ 24 := by rw [Int.natCast_natAbs]; exact hz
    exact_mod_cast this
  have key := roundEven_rnd24_quot N z.natAbs h1 h20 hs
  simp only [fmt2, avgF, exactF, fmtFixed2, Int.cast_lt_zero]
  rw [abs_div, abs_of_pos hN, habs, key]

theorem accF_single_zero (f : Nat → Int) (h : f 0 = 0) : accF f 1 = F32.zero := by
  simp [accF, h, F32.ofInt, F32.ofRat, F32.add, F32.zero, F32.toRat]

theorem accF_single_pos (f : Nat → Int) (h : 0 < f 0) : accF f 1 = F32.ofInt (f 0) := by
  have hq : (0 : ℚ) < (f 0 : ℚ) := by exact_mod_cast h
  have hr := rnd24_pos _ hq
  have e1 : F32.ofInt (f 0) = ⟨false, rnd24 (f 0 : ℚ)⟩ := by
    simp [F32.ofInt, F32.ofRat, hq.ne', not_lt.mpr hq.le, abs_of_pos hq]
  rw [accF, accF, e1]
  simp [F32.add, F32.zero, F32.toRat, F32.ofRat, hr.ne', not_lt.mpr hr.le, abs_of_pos hr,
    rnd24_idem _ hq]

theorem ofInt_natCast (N : Nat) (h1 : 1 ≤ N) (h : N ≤ 2 ^ 24) :
    F32.ofInt (N : Int) = ⟨false, (N : ℚ)⟩ := by
  have hne : ((N : Int) : ℚ) ≠ 0 := by
    have : (0 : ℚ) < ((N : Int) : ℚ) := by exact_mod_cast h1
    exact this.ne'
  have hnn : ¬ ((N : ℚ) < 0) := not_lt.mpr (Nat.cast_nonneg N)
  simp only [F32.ofInt, F32.ofRat, if_neg hne]
  simp [hnn, rnd24_natCast N h]

theorem div_natCast (acc : F32) (N : Nat) (h1 : 1 ≤ N) (h : N ≤ 2 ^ 24) :
    F32.div acc (F32.ofInt (N : Int)) = .ok (avgF acc N) := by
  have hne : (N : ℚ) ≠ 0 := by
    have : (0 : ℚ) < (N : ℚ) := by exact_mod_cast h1
    exact this.ne'
  rw [ofInt_natCast N h1 h]
  simp [F32.div, avgF, hne]

/-! ## The loops -/

theorem forLoop_eq (body : Nat → State → Except Fault State) (S : Nat → State) :
    ∀ k i, (∀ j, i ≤ j → j < i + k → body j (S j) = .ok (S (j + 1))) →
      forLoop body k i (S i) = .ok (S (i + k)) := by
  intro k
  induction k with
  | zero => intro i _; rfl
  | succ k ih =>
    intro i h
    have h1 := h i (le_refl i) (by omega)
    have h2 := ih (i + 1) (fun j hj1 hj2 => h j (by omega) (by omega))
    simp only [forLoop, h1, Except.bind]
    rw [h2]
    congr 2
    omega

theorem state_eq {s t : State} (h1 : ∀ a x, s.mem a x = t.mem a x)
    (h2 : ∀ a x, s.written a x = t.written a x) (h3 : s.indet = t.indet)
    (h4 : s.avg_wt = t.avg_wt) (h5 : s.avg_tat = t.avg_tat) (h6 : s.stdin = t.stdin)
    (h7 : s.out = t.out) : s = t := by
  cases s; cases t
  simp only [State.mk.injEq]
  exact ⟨funext fun a => funext fun x => h1 a x, funext fun a => funext fun x => h2 a x,
    h3, h4, h5, h6, h7⟩

theorem inputStep_stAt (g : Arr → Nat → Int) (B : List Int) (j : Nat) (o : String)
    (hj : j < B.length) (h20 : j < CAP) :
    inputStep j (stAt g B j 0 0 0 o)
      = .ok (stAt g B (j + 1) 0 0 0 (o ++ ("P" ++ fmtInt (j + 1) ++ ": "))) := by
  have hd : B.drop j = B.getD j 0 :: B.drop (j + 1) := by
    rw [List.drop_eq_getElem_cons hj]
    simp [List.getD_eq_getElem?_getD, hj]
  simp only [inputStep, State.print, stAt, hd, State.store, h20, if_true]
  congr 1
  apply state_eq <;> intros <;> simp
  · rename_i a x
    cases a <;> simp
    split_ifs <;> first | rfl | omega | (subst_vars; rfl)
  · rename_i a x
    cases a <;> simp
    by_cases h1 : x = j <;> by_cases h2 : x < j <;> simp [h1, h2] <;> omega

theorem store_waiting_zero (g : Arr → Nat → Int) (B : List Int) (jb : Nat) (o : String) :
    (stAt g B jb 0 0 0 o).store .waiting 0 0 = .ok (stAt g B jb 1 0 0 o) := by
  simp only [State.store, stAt, CAP]
  simp only [Nat.lt_add_one, ↓reduceIte, Nat.zero_lt_succ]
  congr 1
  apply state_eq <;> intros <;> simp
  · rename_i a x
    cases a <;> simp
    split_ifs <;> first | rfl | omega | (subst_vars; rfl)
  · rename_i a x
    cases a <;> simp

theorem waitingStep_stAt (g : Arr → Nat → Int) (B : List Int) (jb j : Nat) (o : String)
    (h1 : 1 ≤ j) (hb : j ≤ jb) (h20 : j < CAP) :
    waitingStep j (stAt g B jb j 0 0 o) = .ok (stAt g B jb (j + 1) 0 0 o) := by
  obtain ⟨k, rfl⟩ : ∃ k, j = k + 1 := ⟨j - 1, by omega⟩
  have hk : k < CAP := by omega
  have hk' : k < jb := by omega
  simp only [waitingStep, State.load, State.store, stAt, bind, Except.bind, Nat.add_sub_cancel,
    hk, h20, if_true]
  congr 1
  apply state_eq <;> intros <;> simp [hk']
  · rename_i a x
    cases a <;> simp
    split_ifs <;> first | rfl | omega | (subst_vars; simp [waitingVal])
  · rename_i a x
    cases a <;> simp
    by_cases h1 : x = k + 1 <;> by_cases h2 : x < k + 1 <;> simp [h1, h2] <;> omega

theorem turnaroundStep_stAt (g : Arr → Nat → Int) (B : List Int) (jb jw j : Nat) (o : String)
    (hw : j < jw) (hb : j < jb) (h20 : j < CAP) :
    turnaroundStep j (stAt g B jb jw j 0 o) = .ok (stAt g B jb jw (j + 1) 0 o) := by
  simp only [turnaroundStep, State.load, State.store, stAt, bind, Except.bind, h20, if_true]
  congr 1
  apply state_eq <;> intros <;> simp [hw, hb]
  · rename_i a x
    cases a <;> simp
    split_ifs <;> first | rfl | omega | (subst_vars; simp [turnaroundVal])
  · rename_i a x
    cases a <;> simp
    by_cases h1 : x = j <;> by_cases h2 : x < j <;> simp [h1, h2] <;> omega

theorem reportStep_stAt (g : Arr → Nat → Int) (B : List Int) (jb jw jt j : Nat) (o : String)
    (hb : j < jb) (hw : j < jw) (ht : j < jt) (h20 : j < CAP) :
    reportStep j (stAt g B jb jw jt j o) = .ok (stAt g B jb jw jt (j + 1) (o ++ rowText B j)) := by
  simp only [reportStep, State.load, State.store, State.print, stAt, bind, Except.bind, pure,
    Except.pure, h20, if_true]
  congr 1
  apply state_eq <;> intros <;> simp [hw, hb, ht, accF, rowText, rowOf]

/-! ## The whole run -/

theorem initial_print (g : Arr → Nat → Int) (B : List Int) :
    ((State.initial g B).print "Enter number of processes: ").print
      "Enter Burst Time for each process:\n" = stAt g B 0 0 0 0 (bannerText ++ promptsText 0) := by
  apply state_eq <;> intros <;>
    simp [State.initial, State.print, stAt, accF, bannerText, promptsText]
  · rename_i a x
    cases a <;> rfl
  · rename_i a x
    cases a <;> rfl

theorem fcfs_eq (g : Arr → Nat → Int) (B : List Int) (N : Nat) (h1 : 1 ≤ N) (h20 : N ≤ 20)
    (hB : B.length = N) : fcfs g (N : Int) B = .ok (finalState g B N) := by
  have hin := forLoop_eq inputStep (fun j => stAt g B j 0 0 0 (bannerText ++ promptsText j)) N 0
    (fun j _ hj => by
      have := inputStep_stAt g B j (bannerText ++ promptsText j) (by omega)
        (by unfold CAP; omega)
      simpa [promptsText, String.append_assoc] using this)
  have hw := forLoop_eq waitingStep
    (fun j => stAt g B N j 0 0 (bannerText ++ promptsText N)) (N - 1) 1
    (fun j hj1 hj2 => waitingStep_stAt g B N j _ hj1 (by omega) (by unfold CAP; omega))
  have ht := forLoop_eq turnaroundStep
    (fun j => stAt g B N N j 0 (bannerText ++ promptsText N)) N 0
    (fun j _ hj2 => turnaroundStep_stAt g B N N j _ (by omega) (by omega) (by unfold CAP; omega))
  have hr := forLoop_eq reportStep
    (fun j => stAt g B N N N j (bannerText ++ promptsText N ++ headerText ++ rowsText B j)) N 0
    (fun j _ hj2 => by
      have := reportStep_stAt g B N N N j
        (bannerText ++ promptsText N ++ headerText ++ rowsText B j)
        (by omega) (by omega) (by omega) (by unfold CAP; omega)
      simpa [rowsText, String.append_assoc] using this)
  have e1 : 1 + (N - 1) = N := by omega
  simp only [Nat.zero_add, e1] at hin hw ht hr
  have hhead : (stAt g B N N N 0 (bannerText ++ promptsText N)).print headerText
      = stAt g B N N N 0 (bannerText ++ promptsText N ++ headerText ++ rowsText B 0) := by
    simp [State.print, stAt, rowsText]
  have hN24 : N ≤ 2 ^ 24 := by omega
  unfold fcfs run
  simp only [Int.toNat_ofNat, bind, Except.bind, initial_print, hin, store_waiting_zero, hw, ht]
  rw [show "\nProcess\tBurst Time\tWaiting Time\tTurnaround Time\n" = headerText from rfl, hhead,
    hr]
  simp only [stAt, div_natCast _ N h1 hN24, pure, Except.pure, State.print, finalState,
    averagesText]
  congr 1
  apply state_eq <;> intros <;> simp [String.append_assoc]

/-! ## Facts about the final state -/

theorem finalState_burst (g : Arr → Nat → Int) (B : List Int) (N i : Nat) (hi : i < N) :
    (finalState g B N).mem .burst i = B.getD i 0 := by
  simp [finalState, stAt, hi]

theorem finalState_waiting (g : Arr → Nat → Int) (B : List Int) (N i : Nat) (hi : i < N) :
    (finalState g B N).mem .waiting i = waitingVal B i := by
  simp [finalState, stAt, hi]

theorem finalState_turnaround (g : Arr → Nat → Int) (B : List Int) (N i : Nat) (hi : i < N) :
    (finalState g B N).mem .turnaround i = turnaroundVal B i := by
  simp [finalState, stAt, hi]

theorem finalState_indet (g : Arr → Nat → Int) (B : List Int) (N : Nat) :
    (finalState g B N).indet = false := rfl

theorem finalState_out (g : Arr → Nat → Int) (B : List Int) (N : Nat) :
    (finalState g B N).out = bannerText ++ promptsText N ++ headerText ++ rowsText B N
      ++ averagesText (finalState g B N).avg_wt (finalState g B N).avg_tat := rfl

theorem finalState_avg_wt (g : Arr → Nat → Int) (B : List Int) (N : Nat) :
    (finalState g B N).avg_wt = avgF (accF (waitingVal B) N) N := rfl

theorem finalState_avg_tat (g : Arr → Nat → Int) (B : List Int) (N : Nat) :
    (finalState g B N).avg_tat = avgF (accF (turnaroundVal B) N) N := rfl

theorem finalState_sum_waiting (g : Arr → Nat → Int) (B : List Int) (N : Nat) :
    (∑ i in Finset.range N, ((finalState g B N).mem .waiting i : ℚ))
      = ((∑ i in Finset.range N, waitingVal B i : Int) : ℚ) := by
  push_cast
  apply Finset.sum_congr rfl
  intro i hi
  rw [finalState_waiting g B N i (Finset.mem_range.mp hi)]

theorem finalState_sum_turnaround (g : Arr → Nat → Int) (B : List Int) (N : Nat) :
    (∑ i in Finset.range N, ((finalState g B N).mem .turnaround i : ℚ))
      = ((∑ i in Finset.range N, turnaroundVal B i : Int) : ℚ) := by
  push_cast
  apply Finset.sum_congr rfl
  intro i hi
  rw [finalState_turnaround g B N i (Finset.mem_range.mp hi)]

theorem report_finalState (g : Arr → Nat → Int) (B : List Int) (N : Nat) :
    (finalState g B N).report N = closedReport B N := by
  unfold State.report closedReport
  congr 1
  · apply List.map_congr_left
    intro i hi
    exact finalState_burst g B N i (List.mem_range.mp hi)
  · apply List.map_congr_left
    intro i hi
    exact finalState_waiting g B N i (List.mem_range.mp hi)
  · apply List.map_congr_left
    intro i hi
    exact finalState_turnaround g B N i (List.mem_range.mp hi)

theorem join_concat (l : List String) (x : String) : String.join (l ++ [x]) = String.join l ++ x := by
  simp [String.join, List.foldl_append]

theorem rowsText_eq_join (B : List Int) (N : Nat) :
    rowsText B N = String.join ((List.range N).map (rowText B)) := by
  induction N with
  | zero => rfl
  | succ k ih => rw [rowsText, ih, List.range_succ, List.map_append, List.map_singleton, join_concat]

theorem waitingVal_eq_wrap_sum (B : List Int) (i : Nat) (hi : i ≤ B.length) :
    waitingVal B i = wrap32 (B.take i).sum := by
  induction i with
  | zero => simp [waitingVal, wrap32]
  | succ k ih =>
    have hk : k < B.length := hi
    rw [waitingVal, ih (by omega), wrap32_add_wrap32, List.sum_take_succ B k hk]
    simp [List.getD_eq_getElem?_getD, hk]

theorem turnaroundVal_eq_wrap_sum (B : List Int) (i : Nat) (hi : i < B.length) :
    turnaroundVal B i = wrap32 (B.take (i + 1)).sum := by
  have h := waitingVal_eq_wrap_sum B (i + 1) hi
  rw [waitingVal] at h
  exact h

theorem sum_take_le_sum (B : List Int) (hpos : ∀ b ∈ B, 0 < b) (k : Nat) :
    (B.take k).sum ≤ B.sum := by
  have h : B.sum = (B.take k).sum + (B.drop k).sum := by
    rw [← List.sum_append, List.take_append_drop]
  have h2 : 0 ≤ (B.drop k).sum :=
    List.sum_nonneg fun b hb => (hpos b (List.mem_of_mem_drop hb)).le
  omega

theorem sum_take_nonneg (B : List Int) (hpos : ∀ b ∈ B, 0 < b) (k : Nat) :
    0 ≤ (B.take k).sum :=
  List.sum_nonneg fun b hb => (hpos b (List.mem_of_mem_take hb)).le

theorem abs_sum_le_length_mul (L : List Int) (M : Int) (h : ∀ b ∈ L, |b| ≤ M) :
    |L.sum| ≤ L.length * M := by
  induction L with
  | nil => simp
  | cons a L ih =>
    have h1 := h a (List.mem_cons_self a L)
    have h2 := ih (fun b hb => h b (List.mem_cons_of_mem a hb))
    have h3 := abs_add a L.sum
    simp only [List.sum_cons, List.length_cons]
    push_cast
    linarith

theorem abs_sum_take_le (B : List Int) (M : Int) (h : ∀ b ∈ B, |b| ≤ M) (i : Nat)
    (hi : i ≤ B.length) : |(B.take i).sum| ≤ i * M := by
  have h1 := abs_sum_le_length_mul (B.take i) M (fun b hb => h b (List.mem_of_mem_take hb))
  rwa [List.length_take, Nat.min_eq_left hi] at h1

theorem waitingVal_small (B : List Int) (M : Int) (h : ∀ b ∈ B, |b| ≤ M) (hM0 : 0 ≤ M)
    (hM : 20 * M ≤ 2147483647) (i : Nat) (hi : i ≤ B.length) (h20 : i ≤ 20) :
    waitingVal B i = (B.take i).sum ∧ |waitingVal B i| ≤ 20 * M := by
  have h1 := abs_sum_take_le B M h i hi
  have h2 : (i : Int) * M ≤ 20 * M :=
    mul_le_mul_of_nonneg_right (by exact_mod_cast h20) hM0
  have h3 : |(B.take i).sum| ≤ 20 * M := le_trans h1 h2
  have h4 := abs_le.mp h3
  have h5 : waitingVal B i = (B.take i).sum := by
    rw [waitingVal_eq_wrap_sum B i hi]
    exact wrap32_of_isInt32 ⟨by omega, by omega⟩
  exact ⟨h5, by rw [h5]; exact h3⟩

theorem turnaroundVal_small (B : List Int) (M : Int) (h : ∀ b ∈ B, |b| ≤ M) (hM0 : 0 ≤ M)
    (hM : 20 * M ≤ 2147483647) (i : Nat) (hi : i < B.length) (h20 : i < 20) :
    turnaroundVal B i = (B.take (i + 1)).sum ∧ |turnaroundVal B i| ≤ 20 * M := by
  have h := waitingVal_small B M h hM0 hM (i + 1) hi h20
  rw [waitingVal] at h
  exact h

/-! ## C1: the waiting-time recurrence -/

/-- C1 (amended): for `1 ≤ N ≤ 20` and every burst sequence, each `waiting[i]`
with `1 ≤ i < N` is `waiting[i-1] + B[i-1]` computed in 32-bit `int`
arithmetic, and it is the sum `B[0] + … + B[i-1]` reduced into the `int`
range; it equals `waiting[i-1] + B[i-1]`, respectively the prefix sum, over
the integers exactly when that number is representable as an `int`. -/
theorem waiting_recurrence (g : Arr → Nat → Int) (N : Nat) (B : List Int)
    (h1 : 1 ≤ N) (h20 : N ≤ 20) (hB : B.length = N) :
    ∃ s, fcfs g (N : Int) B = .ok s ∧ ∀ i, 1 ≤ i → i < N →
      s.mem .waiting i = wrap32 (s.mem .waiting (i - 1) + B.getD (i - 1) 0) ∧
      s.mem .waiting i = wrap32 (B.take i).sum ∧
      (s.mem .waiting i = s.mem .waiting (i - 1) + B.getD (i - 1) 0 ↔
        isInt32 (s.mem .waiting (i - 1) + B.getD (i - 1) 0)) ∧
      (s.mem .waiting i = (B.take i).sum ↔ isInt32 (B.take i).sum) := by
  refine ⟨_, fcfs_eq g B N h1 h20 hB, ?_⟩
  intro i hi1 hiN
  obtain ⟨k, rfl⟩ : ∃ k, i = k + 1 := ⟨i - 1, by omega⟩
  rw [finalState_waiting g B N _ hiN, Nat.add_sub_cancel, finalState_waiting g B N k (by omega)]
  have hrec : waitingVal B (k + 1) = wrap32 (waitingVal B k + B.getD k 0) := rfl
  have hsum := waitingVal_eq_wrap_sum B (k + 1) (by omega)
  refine ⟨hrec, hsum, ?_, ?_⟩
  · rw [hrec]; exact wrap32_eq_iff _
  · rw [hsum]; exact wrap32_eq_iff _

/-- C1, counterexample: with `N = 3`, `B = [2147483647, 1, 0]` the run leaves
`waiting[2] = -2147483648`, while `waiting[1] + B[1]` and `B[0] + B[1]` are
`2147483648`. -/
theorem waiting_recurrence_overflow :
    ∃ s, fcfs g0 3 [2147483647, 1, 0] = .ok s ∧
      s.mem .waiting 2 = -2147483648 ∧
      s.mem .waiting 1 + [2147483647, 1, 0].getD 1 0 = 2147483648 ∧
      ([2147483647, 1, 0].take 2).sum = 2147483648 :=
  ⟨_, fcfs_eq g0 _ 3 (by decide) (by decide) rfl, by decide, by decide, by decide⟩

/-- C1, witness: the statement at `N = 3`, `B = [4, 3, 1]`. -/
theorem waiting_recurrence_witness :
    (1 ≤ 3 ∧ 3 ≤ 20 ∧ [4, 3, 1].length = 3) ∧
    ∃ s, fcfs g0 ((3 : Nat) : Int) [4, 3, 1] = .ok s ∧ ∀ i, 1 ≤ i → i < 3 →
      s.mem .waiting i = wrap32 (s.mem .waiting (i - 1) + [4, 3, 1].getD (i - 1) 0) ∧
      s.mem .waiting i = wrap32 ([4, 3, 1].take i).sum ∧
      (s.mem .waiting i = s.mem .waiting (i - 1) + [4, 3, 1].getD (i - 1) 0 ↔
        isInt32 (s.mem .waiting (i - 1) + [4, 3, 1].getD (i - 1) 0)) ∧
      (s.mem .waiting i = ([4, 3, 1].take i).sum ↔ isInt32 ([4, 3, 1].take i).sum) :=
  ⟨⟨by decide, by decide, rfl⟩,
    waiting_recurrence g0 3 [4, 3, 1] (by decide) (by decide) rfl⟩

/-! ## C2: turnaround times -/

/-- C2 (amended): for `1 ≤ N ≤ 20` and every burst sequence, each
`turnaround[i]` with `i < N` is `waiting[i] + B[i]` computed in 32-bit `int`
arithmetic, and it is the sum `B[0] + … + B[i]` reduced into the `int` range;
it equals `waiting[i] + B[i]`, respectively that sum, over the integers
exactly when that number is representable as an `int`. -/
theorem turnaround_formula (g : Arr → Nat → Int) (N : Nat) (B : List Int)
    (h1 : 1 ≤ N) (h20 : N ≤ 20) (hB : B.length = N) :
    ∃ s, fcfs g (N : Int) B = .ok s ∧ ∀ i, i < N →
      s.mem .turnaround i = wrap32 (s.mem .waiting i + B.getD i 0) ∧
      s.mem .turnaround i = wrap32 (B.take (i + 1)).sum ∧
      (s.mem .turnaround i = s.mem .waiting i + B.getD i 0 ↔
        isInt32 (s.mem .waiting i + B.getD i 0)) ∧
      (s.mem .turnaround i = (B.take (i + 1)).sum ↔ isInt32 (B.take (i + 1)).sum) := by
  refine ⟨_, fcfs_eq g B N h1 h20 hB, ?_⟩
  intro i hiN
  rw [finalState_turnaround g B N _ hiN, finalState_waiting g B N _ hiN]
  have hrec : turnaroundVal B i = wrap32 (waitingVal B i + B.getD i 0) := rfl
  have hsum := turnaroundVal_eq_wrap_sum B i (by omega)
  refine ⟨hrec, hsum, ?_, ?_⟩
  · rw [hrec]; exact wrap32_eq_iff _
  · rw [hsum]; exact wrap32_eq_iff _

/-- C2, counterexample: with `N = 2`, `B = [2147483647, 1]` the run leaves
`turnaround[1] = -2147483648`, while `waiting[1] + B[1]` and `B[0] + B[1]` are
`2147483648`. -/
theorem turnaround_formula_overflow :
    ∃ s, fcfs g0 2 [2147483647, 1] = .ok s ∧
      s.mem .turnaround 1 = -2147483648 ∧
      s.mem .waiting 1 + [2147483647, 1].getD 1 0 = 2147483648 ∧
      ([2147483647, 1].take 2).sum = 2147483648 :=
  ⟨_, fcfs_eq g0 _ 2 (by decide) (by decide) rfl, by decide, by decide, by decide⟩

/-- C2, witness: the statement at `N = 3`, `B = [4, 3, 1]`. -/
theorem turnaround_formula_witness :
    (1 ≤ 3 ∧ 3 ≤ 20 ∧ [4, 3, 1].length = 3) ∧
    ∃ s, fcfs g0 ((3 : Nat) : Int) [4, 3, 1] = .ok s ∧ ∀ i, i < 3 →
      s.mem .turnaround i = wrap32 (s.mem .waiting i + [4, 3, 1].getD i 0) ∧
      s.mem .turnaround i = wrap32 ([4, 3, 1].take (i + 1)).sum ∧
      (s.mem .turnaround i = s.mem .waiting i + [4, 3, 1].getD i 0 ↔
        isInt32 (s.mem .waiting i + [4, 3, 1].getD i 0)) ∧
      (s.mem .turnaround i = ([4, 3, 1].take (i + 1)).sum ↔
        isInt32 ([4, 3, 1].take (i + 1)).sum) :=
  ⟨⟨by decide, by decide, rfl⟩,
    turnaround_formula g0 3 [4, 3, 1] (by decide) (by decide) rfl⟩

/-! ## `waiting[0]` is written once -/

theorem store_keeps_waiting_zero {s s' : State} {a : Arr} {i : Nat} {v : Int}
    (h : s.store a i v = .ok s') (hne : a ≠ .waiting ∨ i ≠ 0) :
    s'.mem .waiting 0 = s.mem .waiting 0 := by
  unfold State.store at h
  split_ifs at h
  simp only [Except.ok.injEq] at h
  rw [← h]
  have : ¬ (Arr.waiting = a ∧ 0 = i) := by
    rintro ⟨h1, h2⟩
    rcases hne with h3 | h3
    · exact h3 h1.symm
    · exact h3 h2.symm
  simp [this]

theorem inputStep_keeps (i : Nat) (s s' : State) (hP : s.mem .waiting 0 = 0)
    (h : inputStep i s = .ok s') : s'.mem .waiting 0 = 0 := by
  unfold inputStep at h
  simp only [State.print] at h
  split at h
  · simp only [Except.ok.injEq] at h
    rw [← h]; exact hP
  · rw [store_keeps_waiting_zero h (Or.inl (by decide))]
    exact hP

/-- C4 (amended): for `1 ≤ N ≤ 20` and bursts of magnitude at most 41943 (so
that every running total is an integer of magnitude at most `2 ^ 24`), each
average is the binary32 number nearest to the exact rational quotient
`sum / N` (not the integer quotient), hence within a relative error of
`2 ^ (-24)` of it. -/
theorem averages_are_rounded_quotients (g : Arr → Nat → Int) (N : Nat) (B : List Int)
    (h1 : 1 ≤ N) (h20 : N ≤ 20) (hB : B.length = N) (hM : ∀ b ∈ B, |b| ≤ 41943) :
    ∃ s, fcfs g (N : Int) B = .ok s ∧
      s.avg_wt = F32.ofRat false ((∑ i in Finset.range N, (s.mem .waiting i : ℚ)) / N) ∧
      s.avg_tat = F32.ofRat false ((∑ i in Finset.range N, (s.mem .turnaround i : ℚ)) / N) ∧
      |s.avg_wt.toRat - (∑ i in Finset.range N, (s.mem .waiting i : ℚ)) / N|
        ≤ |(∑ i in Finset.range N, (s.mem .waiting i : ℚ)) / N| / 2 ^ 24 ∧
      |s.avg_tat.toRat - (∑ i in Finset.range N, (s.mem .turnaround i : ℚ)) / N|
        ≤ |(∑ i in Finset.range N, (s.mem .turnaround i : ℚ)) / N| / 2 ^ 24 := by
  refine ⟨_, fcfs_eq g B N h1 h20 hB, ?_⟩
  have hw : accF (waitingVal B) N = exactF (∑ i in Finset.range N, waitingVal B i) :=
    accF_exact _ (20 * 41943) N
      (fun i hi => (waitingVal_small B 41943 hM (by norm_num) (by norm_num) i (by omega)
        (by omega)).2)
      (by have : (N : Int) ≤ 20 := by exact_mod_cast h20
          nlinarith)
  have ht : accF (turnaroundVal B) N = exactF (∑ i in Finset.range N, turnaroundVal B i) :=
    accF_exact _ (20 * 41943) N
      (fun i hi => (turnaroundVal_small B 41943 hM (by norm_num) (by norm_num) i (by omega)
        (by omega)).2)
      (by have : (N : Int) ≤ 20 := by exact_mod_cast h20
          nlinarith)
  have e1 : (finalState g B N).avg_wt
      = F32.ofRat false
        ((∑ i in Finset.range N, ((finalState g B N).mem .waiting i : ℚ)) / N) := by
    rw [finalState_avg_wt, hw, avgF_exactF _ N h1, finalState_sum_waiting]
  have e2 : (finalState g B N).avg_tat
      = F32.ofRat false
        ((∑ i in Finset.range N, ((finalState g B N).mem .turnaround i : ℚ)) / N) := by
    rw [finalState_avg_tat, ht, avgF_exactF _ N h1, finalState_sum_turnaround]
  refine ⟨e1, e2, ?_, ?_⟩
  · rw [e1]; exact ofRat_err _ _
  · rw [e2]; exact ofRat_err _ _

/-- C4, counterexample: with `N = 3`, `B = [4, 3, 1]` the averages computed are
`15379115 / 4194304` and `13281963 / 2097152`, not the exact quotients
`11 / 3` and `19 / 3`. -/
theorem averages_not_exact :
    ∃ s, fcfs g0 3 [4, 3, 1] = .ok s ∧
      s.avg_wt.toRat = 15379115 / 4194304 ∧
      (∑ i in Finset.range 3, (s.mem .waiting i : ℚ)) / 3 = 11 / 3 ∧
      s.avg_wt.toRat ≠ (∑ i in Finset.range 3, (s.mem .waiting i : ℚ)) / 3 ∧
      s.avg_tat.toRat = 13281963 / 2097152 ∧
      (∑ i in Finset.range 3, (s.mem .turnaround i : ℚ)) / 3 = 19 / 3 ∧
      s.avg_tat.toRat ≠ (∑ i in Finset.range 3, (s.mem .turnaround i : ℚ)) / 3 :=
  ⟨_, fcfs_eq g0 _ 3 (by decide) (by decide) rfl, by decide!, by decide!, by decide!,
    by decide!, by decide!, by decide!⟩

/-- C4, witness: the statement at `N = 3`, `B = [4, 3, 1]`. -/
theorem averages_are_rounded_quotients_witness :
    (1 ≤ 3 ∧ 3 ≤ 20 ∧ [4, 3, 1].length = 3 ∧ ∀ b ∈ [(4 : Int), 3, 1], |b| ≤ 41943) ∧
    ∃ s, fcfs g0 ((3 : Nat) : Int) [4, 3, 1] = .ok s ∧
      s.avg_wt = F32.ofRat false
        ((∑ i in Finset.range 3, (s.mem .waiting i : ℚ)) / (3 : Nat)) ∧
      s.avg_tat = F32.ofRat false
        ((∑ i in Finset.range 3, (s.mem .turnaround i : ℚ)) / (3 : Nat)) ∧
      |s.avg_wt.toRat - (∑ i in Finset.range 3, (s.mem .waiting i : ℚ)) / (3 : Nat)|
        ≤ |(∑ i in Finset.range 3, (s.mem .waiting i : ℚ)) / (3 : Nat)| / 2 ^ 24 ∧
      |s.avg_tat.toRat - (∑ i in Finset.range 3, (s.mem .turnaround i : ℚ)) / (3 : Nat)|
        ≤ |(∑ i in Finset.range 3, (s.mem .turnaround i : ℚ)) / (3 : Nat)| / 2 ^ 24 :=
  ⟨⟨by decide, by decide, rfl, by decide!⟩,
    averages_are_rounded_quotients g0 3 [4, 3, 1] (by decide) (by decide) rfl (by decide!)⟩

/-! ## C5: a single process -/

/-- C5 (amended): for `N = 1` and every positive burst `B[0]`, the run leaves
`waiting[0] = 0` and `turnaround[0] = B[0]`; the average waiting time is `0`
and the average turnaround time is `B[0]` converted to binary32, which is
`B[0]` itself whenever `B[0] ≤ 2 ^ 24`.  For `B = [5]` the report ends with
average waiting time `0.00` and average turnaround time `5.00`. -/
theorem single_process (g : Arr → Nat → Int) (b : Int) (hpos : 0 < b) (hmax : b ≤ 2147483647) :
    (∃ s, fcfs g 1 [b] = .ok s ∧ s.mem .waiting 0 = 0 ∧ s.mem .turnaround 0 = b ∧
      s.avg_wt = F32.zero ∧ s.avg_tat = F32.ofInt b ∧
      (b ≤ 16777216 → s.avg_tat.toRat = b)) ∧
    (fcfs g 1 [5]).toOption.map (State.report 1) = some
      { burst := [5], waiting := [0], turnaround := [5]
        avg_wt := ⟨false, 0⟩, avg_tat := ⟨false, 5⟩
        out := "Enter number of processes: Enter Burst Time for each process:\nP1: \nProcess\tBurst Time\tWaiting Time\tTurnaround Time\nP1\t5\t\t0\t\t5\n\nAverage Waiting Time = 0.00\nAverage Turnaround Time = 5.00\n" } := by
  have hrun := fcfs_eq g [b] 1 (le_refl 1) (by norm_num) rfl
  have hrun5 := fcfs_eq g [5] 1 (le_refl 1) (by norm_num) rfl
  simp only [Nat.cast_one] at hrun hrun5
  have ht : turnaroundVal [b] 0 = b := by
    simp only [turnaroundVal, waitingVal, List.getD_cons_zero, zero_add]
    exact wrap32_of_isInt32 ⟨by omega, hmax⟩
  constructor
  · refine ⟨_, hrun, ?_, ?_, ?_, ?_, ?_⟩
    · rw [finalState_waiting g [b] 1 0 (by norm_num)]; rfl
    · rw [finalState_turnaround g [b] 1 0 (by norm_num)]; exact ht
    · rw [finalState_avg_wt, accF_single_zero (waitingVal [b]) rfl]
      simp [avgF, F32.zero, rnd24_zero]
    · rw [finalState_avg_tat, accF_single_pos _ (by rw [ht]; exact hpos), ht]
      have hq : (0 : ℚ) < (b : ℚ) := by exact_mod_cast hpos
      have e1 : F32.ofInt b = ⟨false, rnd24 (b : ℚ)⟩ := by
        simp [F32.ofInt, F32.ofRat, hq.ne', not_lt.mpr hq.le, abs_of_pos hq]
      rw [e1]
      simp [avgF, rnd24_idem _ hq]
    · intro hb
      rw [finalState_avg_tat, accF_single_pos _ (by rw [ht]; exact hpos), ht,
        ofInt_exact b (by rw [abs_of_pos hpos]; norm_num; exact hb)]
      have hq : (0 : ℚ) < (b : ℚ) := by exact_mod_cast hpos
      have : rnd24 |(b : ℚ)| = |(b : ℚ)| :=
        rnd24_abs_intCast b (by rw [abs_of_pos hpos]; norm_num; exact hb)
      rw [abs_of_pos hq] at this
      simp [avgF, exactF, F32.toRat, not_lt.mpr hpos.le, this, abs_of_pos hq]
  · rw [hrun5]
    simp only [Except.toOption, Option.map_some', report_finalState]
    decide!

/-- C5, counterexample: with `N = 1`, `B = [5]` the average waiting time is `0`
and is printed as `0.00`, not `5.00`; with `N = 1`, `B = [16777217]` the
average turnaround time is `16777216`. -/
theorem single_process_averages :
    (∃ s, fcfs g0 1 [5] = .ok s ∧ s.avg_wt.toRat = 0 ∧ fmt2 s.avg_wt = "0.00") ∧
    (∃ s, fcfs g0 1 [16777217] = .ok s ∧ s.mem .turnaround 0 = 16777217 ∧
      s.avg_tat.toRat = 16777216) :=
  ⟨⟨_, fcfs_eq g0 _ 1 (by decide) (by decide) rfl, by decide!, by decide!⟩,
    ⟨_, fcfs_eq g0 _ 1 (by decide) (by decide) rfl, by decide!, by decide!⟩⟩

/-- C5, witness: the statement at `B = [7]`. -/
theorem single_process_witness :
    ((0 : Int) < 7 ∧ (7 : Int) ≤ 2147483647) ∧
    ((∃ s, fcfs g0 1 [7] = .ok s ∧ s.mem .waiting 0 = 0 ∧ s.mem .turnaround 0 = 7 ∧
      s.avg_wt = F32.zero ∧ s.avg_tat = F32.ofInt 7 ∧
      ((7 : Int) ≤ 16777216 → s.avg_tat.toRat = (7 : Int))) ∧
    (fcfs g0 1 [5]).toOption.map (State.report 1) = some
      { burst := [5], waiting := [0], turnaround := [5]
        avg_wt := ⟨false, 0⟩, avg_tat := ⟨false, 5⟩
        out := "Enter number of processes: Enter Burst Time for each process:\nP1: \nProcess\tBurst Time\tWaiting Time\tTurnaround Time\nP1\t5\t\t0\t\t5\n\nAverage Waiting Time = 0.00\nAverage Turnaround Time = 5.00\n" }) :=
  ⟨⟨by decide, by decide⟩, single_process g0 7 (by decide) (by decide)⟩

/-! ## C6: no fault for `1 ≤ N ≤ 20` -/

/-- C6: for `1 ≤ N ≤ 20` and `N` burst values the run completes without a
fault: no `load` or `store` meets an index outside `[0, 19]` and neither
division meets a zero divisor. -/
theorem run_fault_free (g : Arr → Nat → Int) (N : Nat) (B : List Int)
    (h1 : 1 ≤ N) (h20 : N ≤ 20) (hB : B.length = N) :
    (∃ s, fcfs g (N : Int) B = .ok s) ∧ (F32.ofInt (N : Int)).mag ≠ 0 := by
  refine ⟨⟨_, fcfs_eq g B N h1 h20 hB⟩, ?_⟩
  rw [ofInt_natCast N h1 (by omega)]
  have : (0 : ℚ) < (N : ℚ) := by exact_mod_cast h1
  exact this.ne'

/-- C6, witness: the statement at the maximum `N = 20`, all bursts `1`. -/
theorem run_fault_free_witness :
    (1 ≤ 20 ∧ 20 ≤ 20 ∧ (List.replicate 20 (1 : Int)).length = 20) ∧
    (∃ s, fcfs g0 ((20 : Nat) : Int) (List.replicate 20 1) = .ok s) ∧
      (F32.ofInt ((20 : Nat) : Int)).mag ≠ 0 :=
  ⟨⟨by decide, by decide, rfl⟩,
    run_fault_free g0 20 (List.replicate 20 1) (by decide) (by decide) rfl⟩

/-! ## C7: the printed averages -/

/-- C7 (amended): for `1 ≤ N ≤ 20` and bursts of magnitude at most 200, the two
averages are printed as the exact quotients `sum / N` rounded to two decimal
places (ties to even), in the two closing lines of the output.  Scenario A
(`N = 3`, `B = [4, 3, 1]`) gives `waiting = [0, 4, 7]`,
`turnaround = [4, 7, 8]` and prints `3.67` (`11/3`) and `6.33` (`19/3`);
scenario C (`N = 4`, `B = [1, 1, 1, 1]`) gives `waiting = [0, 1, 2, 3]`,
`turnaround = [1, 2, 3, 4]` and prints `1.50` and `2.50`. -/
theorem printed_averages (g : Arr → Nat → Int) (N : Nat) (B : List Int)
    (h1 : 1 ≤ N) (h20 : N ≤ 20) (hB : B.length = N) (hM : ∀ b ∈ B, |b| ≤ 200) :
    (∃ s, fcfs g (N : Int) B = .ok s ∧
      fmt2 s.avg_wt = fmtFixed2 (decide ((∑ i in Finset.range N, (s.mem .waiting i : ℚ)) < 0))
        |(∑ i in Finset.range N, (s.mem .waiting i : ℚ)) / N| ∧
      fmt2 s.avg_tat
        = fmtFixed2 (decide ((∑ i in Finset.range N, (s.mem .turnaround i : ℚ)) < 0))
        |(∑ i in Finset.range N, (s.mem .turnaround i : ℚ)) / N| ∧
      ∃ pre, s.out = pre ++ ("\nAverage Waiting Time = " ++ fmt2 s.avg_wt ++
        "\nAverage Turnaround Time = " ++ fmt2 s.avg_tat ++ "\n")) ∧
    ((fcfs g 3 [4, 3, 1]).toOption.map (State.report 3) = some
      { burst := [4, 3, 1], waiting := [0, 4, 7], turnaround := [4, 7, 8]
        avg_wt := ⟨false, 15379115 / 4194304⟩, avg_tat := ⟨false, 13281963 / 2097152⟩
        out := "Enter number of processes: Enter Burst Time for each process:\nP1: P2: P3: \nProcess\tBurst Time\tWaiting Time\tTurnaround Time\nP1\t4\t\t0\t\t4\nP2\t3\t\t4\t\t7\nP3\t1\t\t7\t\t8\n\nAverage Waiting Time = 3.67\nAverage Turnaround Time = 6.33\n" }
      ∧ fmtFixed2 false (11 / 3) = "3.67" ∧ fmtFixed2 false (19 / 3) = "6.33") ∧
    ((fcfs g 4 [1, 1, 1, 1]).toOption.map (State.report 4) = some
      { burst := [1, 1, 1, 1], waiting := [0, 1, 2, 3], turnaround := [1, 2, 3, 4]
        avg_wt := ⟨false, 3 / 2⟩, avg_tat := ⟨false, 5 / 2⟩
        out := "Enter number of processes: Enter Burst Time for each process:\nP1: P2: P3: P4: \nProcess\tBurst Time\tWaiting Time\tTurnaround Time\nP1\t1\t\t0\t\t1\nP2\t1\t\t1\t\t2\nP3\t1\t\t2\t\t3\nP4\t1\t\t3\t\t4\n\nAverage Waiting Time = 1.50\nAverage Turnaround Time = 2.50\n" }
      ∧ fmtFixed2 false (3 / 2) = "1.50" ∧ fmtFixed2 false (5 / 2) = "2.50") := by
  have hA := fcfs_eq g [4, 3, 1] 3 (by norm_num) (by norm_num) rfl
  have hC := fcfs_eq g [1, 1, 1, 1] 4 (by norm_num) (by norm_num) rfl
  simp only [Nat.cast_ofNat] at hA hC
  refine ⟨⟨_, fcfs_eq g B N h1 h20 hB, ?_, ?_, ?_⟩, ?_, ?_⟩
  · have hb : ∀ i, i < N → |waitingVal B i| ≤ 20 * 200 := fun i hi =>
      (waitingVal_small B 200 hM (by norm_num) (by norm_num) i (by omega) (by omega)).2
    have hacc := accF_exact (waitingVal B) (20 * 200) N hb
      (by have : (N : Int) ≤ 20 := by exact_mod_cast h20
          nlinarith)
    have hsum := abs_sum_range_le (waitingVal B) (20 * 200) N hb
    rw [finalState_avg_wt, hacc, finalState_sum_waiting]
    apply fmt2_avgF_exactF _ N h1 h20
    have : (N : Int) ≤ 20 := by exact_mod_cast h20
    nlinarith
  · have hb : ∀ i, i < N → |turnaroundVal B i| ≤ 20 * 200 := fun i hi =>
      (turnaroundVal_small B 200 hM (by norm_num) (by norm_num) i (by omega) (by omega)).2
    have hacc := accF_exact (turnaroundVal B) (20 * 200) N hb
      (by have : (N : Int) ≤ 20 := by exact_mod_cast h20
          nlinarith)
    have hsum := abs_sum_range_le (turnaroundVal B) (20 * 200) N hb
    rw [finalState_avg_tat, hacc, finalState_sum_turnaround]
    apply fmt2_avgF_exactF _ N h1 h20
    have : (N : Int) ≤ 20 := by exact_mod_cast h20
    nlinarith
  · refine ⟨bannerText ++ promptsText N ++ headerText ++ rowsText B N, ?_⟩
    rw [finalState_out]
    simp only [averagesText, String.append_assoc]
  · rw [hA]
    simp only [Except.toOption, Option.map_some', report_finalState]
    decide!
  · rw [hC]
    simp only [Except.toOption, Option.map_some', report_finalState]
    decide!

/-- C7, counterexample: with `N = 1`, `B = [33554433]` the average turnaround
time is printed as `33554432.00`, while the exact quotient `33554433 / 1`
rounded to two decimals is `33554433.00`. -/
theorem printed_average_not_exact :
    ∃ s, fcfs g0 1 [33554433] = .ok s ∧ s.mem .turnaround 0 = 33554433 ∧
      fmt2 s.avg_tat = "33554432.00" ∧
      fmtFixed2 false ((∑ i in Finset.range 1, (s.mem .turnaround i : ℚ)) / 1)
        = "33554433.00" :=
  ⟨_, fcfs_eq g0 _ 1 (by decide) (by decide) rfl, by decide!, by decide!, by decide!⟩

/-- C7, witness: the statement at `N = 2`, `B = [-1, 2]`. -/
theorem printed_averages_witness :
    (1 ≤ 2 ∧ 2 ≤ 20 ∧ [(-1 : Int), 2].length = 2 ∧ ∀ b ∈ [(-1 : Int), 2], |b| ≤ 200) ∧
    ((∃ s, fcfs g0 ((2 : Nat) : Int) [-1, 2] = .ok s ∧
      fmt2 s.avg_wt = fmtFixed2 (decide ((∑ i in Finset.range 2, (s.mem .waiting i : ℚ)) < 0))
        |(∑ i in Finset.range 2, (s.mem .waiting i : ℚ)) / (2 : Nat)| ∧
      fmt2 s.avg_tat
        = fmtFixed2 (decide ((∑ i in Finset.range 2, (s.mem .turnaround i : ℚ)) < 0))
        |(∑ i in Finset.range 2, (s.mem .turnaround i : ℚ)) / (2 : Nat)| ∧
      ∃ pre, s.out = pre ++ ("\nAverage Waiting Time = " ++ fmt2 s.avg_wt ++
        "\nAverage Turnaround Time = " ++ fmt2 s.avg_tat ++ "\n")) ∧
    ((fcfs g0 3 [4, 3, 1]).toOption.map (State.report 3) = some
      { burst := [4, 3, 1], waiting := [0, 4, 7], turnaround := [4, 7, 8]
        avg_wt := ⟨false, 15379115 / 4194304⟩, avg_tat := ⟨false, 13281963 / 2097152⟩
        out := "Enter number of processes: Enter Burst Time for each process:\nP1: P2: P3: \nProcess\tBurst Time\tWaiting Time\tTurnaround Time\nP1\t4\t\t0\t\t4\nP2\t3\t\t4\t\t7\nP3\t1\t\t7\t\t8\n\nAverage Waiting Time = 3.67\nAverage Turnaround Time = 6.33\n" }
      ∧ fmtFixed2 false (11 / 3) = "3.67" ∧ fmtFixed2 false (19 / 3) = "6.33") ∧
    ((fcfs g0 4 [1, 1, 1, 1]).toOption.map (State.report 4) = some
      { burst := [1, 1, 1, 1], waiting := [0, 1, 2, 3], turnaround := [1, 2, 3, 4]
        avg_wt := ⟨false, 3 / 2⟩, avg_tat := ⟨false, 5 / 2⟩
        out := "Enter number of processes: Enter Burst Time for each process:\nP1: P2: P3: P4: \nProcess\tBurst Time\tWaiting Time\tTurnaround Time\nP1\t1\t\t0\t\t1\nP2\t1\t\t1\t\t2\nP3\t1\t\t2\t\t3\nP4\t1\t\t3\t\t4\n\nAverage Waiting Time = 1.50\nAverage Turnaround Time = 2.50\n" }
      ∧ fmtFixed2 false (3 / 2) = "1.50" ∧ fmtFixed2 false (5 / 2) = "2.50")) :=
  ⟨⟨by decide, by decide, rfl, by decide!⟩,
    printed_averages g0 2 [-1, 2] (by decide) (by decide) rfl (by decide!)⟩

/-! ## C8: signs of the results -/

/-- C8: for `1 ≤ N ≤ 20` and positive bursts whose total fits in an `int`,
every `waiting[i]` is non-negative and every `turnaround[i]` is positive. -/
theorem waiting_nonneg_turnaround_pos (g : Arr → Nat → Int) (N : Nat) (B : List Int)
    (h1 : 1 ≤ N) (h20 : N ≤ 20) (hB : B.length = N) (hpos : ∀ b ∈ B, 0 < b)
    (hfit : B.sum ≤ 2147483647) :
    ∃ s, fcfs g (N : Int) B = .ok s ∧ ∀ i, i < N →
      0 ≤ s.mem .waiting i ∧ 0 < s.mem .turnaround i := by
  refine ⟨_, fcfs_eq g B N h1 h20 hB, ?_⟩
  intro i hiN
  rw [finalState_turnaround g B N _ hiN, finalState_waiting g B N _ hiN,
    waitingVal_eq_wrap_sum B i (by omega), turnaroundVal_eq_wrap_sum B i (by omega)]
  have a1 := sum_take_le_sum B hpos i
  have a2 := sum_take_nonneg B hpos i
  have a3 := sum_take_le_sum B hpos (i + 1)
  have a4 : (B.take (i + 1)).sum = (B.take i).sum + B[i] := List.sum_take_succ B i (by omega)
  have a5 : 0 < B[i] := hpos _ (List.getElem_mem _)
  rw [wrap32_of_isInt32 ⟨by omega, by omega⟩, wrap32_of_isInt32 ⟨by omega, by omega⟩]
  omega

/-- C8, witness: the statement at `N = 3`, `B = [4, 3, 1]`. -/
theorem waiting_nonneg_turnaround_pos_witness :
    (1 ≤ 3 ∧ 3 ≤ 20 ∧ [4, 3, 1].length = 3 ∧ (∀ b ∈ [(4 : Int), 3, 1], 0 < b) ∧
      [(4 : Int), 3, 1].sum ≤ 2147483647) ∧
    ∃ s, fcfs g0 ((3 : Nat) : Int) [4, 3, 1] = .ok s ∧ ∀ i, i < 3 →
      0 ≤ s.mem .waiting i ∧ 0 < s.mem .turnaround i :=
  ⟨⟨by decide, by decide, rfl, by decide, by decide⟩,
    waiting_nonneg_turnaround_pos g0 3 [4, 3, 1] (by decide) (by decide) rfl (by decide)
      (by decide)⟩

/-! ## C9: independence of the entry contents of the arrays -/

/-- C9: for `1 ≤ N ≤ 20` and `N` burst values, runs started from any two
entry contents of the arrays both complete and agree on the bursts, the
waiting and turnaround values, the averages and the text printed; and no run
reads an array cell that it has not written before. -/
theorem result_independent_of_entry_contents (g₁ g₂ : Arr → Nat → Int) (N : Nat)
    (B : List Int) (h1 : 1 ≤ N) (h20 : N ≤ 20) (hB : B.length = N) :
    ∃ s₁ s₂, fcfs g₁ (N : Int) B = .ok s₁ ∧ fcfs g₂ (N : Int) B = .ok s₂ ∧
      s₁.report N = s₂.report N ∧ s₁.indet = false ∧ s₂.indet = false :=
  ⟨_, _, fcfs_eq g₁ B N h1 h20 hB, fcfs_eq g₂ B N h1 h20 hB,
    by rw [report_finalState, report_finalState], rfl, rfl⟩

/-- C9, witness: the statement at `N = 3`, `B = [4, 3, 1]` for the entry contents
`g0` and `g1`. -/
theorem result_independent_of_entry_contents_witness :
    (1 ≤ 3 ∧ 3 ≤ 20 ∧ [4, 3, 1].length = 3) ∧
    ∃ s₁ s₂, fcfs g0 ((3 : Nat) : Int) [4, 3, 1] = .ok s₁ ∧
      fcfs g1 ((3 : Nat) : Int) [4, 3, 1] = .ok s₂ ∧
      s₁.report 3 = s₂.report 3 ∧ s₁.indet = false ∧ s₂.indet = false :=
  ⟨⟨by decide, by decide, rfl⟩,
    result_independent_of_entry_contents g0 g1 3 [4, 3, 1] (by decide) (by decide) rfl⟩

/-! ## C10: the report text -/

/-- C10: for `1 ≤ N ≤ 20` and `N` burst values, what the run prints after the
prompts of the input phase is (after the line break that ends the prompt
line) the header line, then one row
`P<k+1>\t<B[k]>\t\t<waiting[k]>\t\t<turnaround[k]>` for `k = 0, …, N-1` in
this order, then an empty line and the two lines with the averages. -/
theorem report_text (g : Arr → Nat → Int) (N : Nat) (B : List Int)
    (h1 : 1 ≤ N) (h20 : N ≤ 20) (hB : B.length = N) :
    ∃ s, fcfs g (N : Int) B = .ok s ∧
      s.out = bannerText ++ promptsText N ++
        ("\nProcess\tBurst Time\tWaiting Time\tTurnaround Time\n" ++
          String.join ((List.range N).map fun (k : Nat) =>
            "P" ++ fmtInt (k + 1) ++ "\t" ++ fmtInt (B.getD k 0) ++ "\t\t" ++
              fmtInt (s.mem .waiting k) ++ "\t\t" ++ fmtInt (s.mem .turnaround k) ++ "\n") ++
          ("\nAverage Waiting Time = " ++ fmt2 s.avg_wt ++
            "\nAverage Turnaround Time = " ++ fmt2 s.avg_tat ++ "\n")) := by
  refine ⟨_, fcfs_eq g B N h1 h20 hB, ?_⟩
  have hrows : (List.range N).map (fun (k : Nat) =>
      "P" ++ fmtInt (k + 1) ++ "\t" ++ fmtInt (B.getD k 0) ++ "\t\t" ++
        fmtInt ((finalState g B N).mem .waiting k) ++ "\t\t" ++
        fmtInt ((finalState g B N).mem .turnaround k) ++ "\n")
      = (List.range N).map (rowText B) := by
    apply List.map_congr_left
    intro k hk
    have hk' := List.mem_range.mp hk
    rw [finalState_waiting g B N k hk', finalState_turnaround g B N k hk']
    rfl
  rw [hrows, ← rowsText_eq_join, finalState_out]
  simp only [averagesText, headerText, String.append_assoc]

/-- C10, witness: the statement at `N = 3`, `B = [4, 3, 1]`. -/
theorem report_text_witness :
    (1 ≤ 3 ∧ 3 ≤ 20 ∧ [4, 3, 1].length = 3) ∧
    ∃ s, fcfs g0 ((3 : Nat) : Int) [4, 3, 1] = .ok s ∧
      s.out = bannerText ++ promptsText 3 ++
        ("\nProcess\tBurst Time\tWaiting Time\tTurnaround Time\n" ++
          String.join ((List.range 3).map fun (k : Nat) =>
            "P" ++ fmtInt (k + 1) ++ "\t" ++ fmtInt ([4, 3, 1].getD k 0) ++ "\t\t" ++
              fmtInt (s.mem .waiting k) ++ "\t\t" ++ fmtInt (s.mem .turnaround k) ++ "\n") ++
          ("\nAverage Waiting Time = " ++ fmt2 s.avg_wt ++
            "\nAverage Turnaround Time = " ++ fmt2 s.avg_tat ++ "\n")) :=
  ⟨⟨by decide, by decide, rfl⟩, report_text g0 3 [4, 3, 1] (by decide) (by decide) rfl⟩


/-! ## More on the loops -/

theorem forLoop_add (body : Nat → State → Except Fault State) (a b : Nat) :
    ∀ i s, forLoop body (a + b) i s = (forLoop body a i s).bind (forLoop body b (i + a)) := by
  induction a with
  | zero => intro i s; simp [forLoop, Except.bind]
  | succ a ih =>
    intro i s
    rw [show a + 1 + b = (a + b) + 1 by omega]
    simp only [forLoop]
    cases h : body i s with
    | error e => rfl
    | ok s1 =>
      simp only [Except.bind]
      rw [ih (i + 1) s1, show i + 1 + a = i + (a + 1) by omega]
      rfl

theorem inputLoop_twenty (g : Arr → Nat → Int) (B : List Int) (hB : 20 ≤ B.length) :
    forLoop inputStep 20 0 (stAt g B 0 0 0 0 (bannerText ++ promptsText 0))
      = .ok (stAt g B 20 0 0 0 (bannerText ++ promptsText 20)) :=
  forLoop_eq inputStep (fun j => stAt g B j 0 0 0 (bannerText ++ promptsText j)) 20 0
    (fun j _ hj => by
      have := inputStep_stAt g B j (bannerText ++ promptsText j) (by omega)
        (by unfold CAP; omega)
      simpa [promptsText, String.append_assoc] using this)

theorem inputStep_twenty (g : Arr → Nat → Int) (B : List Int) (o : String)
    (hB : 20 < B.length) : inputStep 20 (stAt g B 20 0 0 0 o) = .error .outOfBounds := by
  have hd : B.drop 20 = B.getD 20 0 :: B.drop 21 := by
    rw [List.drop_eq_getElem_cons hB]
    simp [List.getD_eq_getElem?_getD, hB]
  simp [inputStep, State.print, stAt, hd, State.store, CAP]

/-! ## C11: no check of `N` against the capacity -/

/-- C11: for every `N > 20` with `N` burst values supplied, the input loop
completes its first twenty iterations having printed nothing but the prompts,
its iteration `i = 20` faults on the store to `burst[20]`, and the run as a
whole ends in the out-of-bounds fault. -/
theorem overrun_beyond_capacity (g : Arr → Nat → Int) (N : Nat) (B : List Int)
    (hN : 20 < N) (hB : B.length = N) :
    fcfs g (N : Int) B = .error .outOfBounds ∧
    ∃ s, forLoop inputStep 20 0
        (((State.initial g B).print "Enter number of processes: ").print
          "Enter Burst Time for each process:\n") = .ok s ∧
      s.out = bannerText ++ promptsText 20 ∧
      inputStep 20 s = .error .outOfBounds := by
  have h20 := inputLoop_twenty g B (by omega)
  have hstep := inputStep_twenty g B (bannerText ++ promptsText 20) (by omega)
  constructor
  · obtain ⟨k, rfl⟩ : ∃ k, N = 20 + (k + 1) := ⟨N - 21, by omega⟩
    unfold fcfs run
    simp only [Int.toNat_ofNat, bind, Except.bind, initial_print]
    rw [forLoop_add, h20]
    simp only [Except.bind, forLoop, Nat.zero_add, hstep]
  · refine ⟨_, ?_, rfl, hstep⟩
    rw [initial_print]
    exact h20

/-- C11, witness: the statement at `N = 21`, all bursts `1`. -/
theorem overrun_beyond_capacity_witness :
    (20 < 21 ∧ (List.replicate 21 (1 : Int)).length = 21) ∧
    (fcfs g0 ((21 : Nat) : Int) (List.replicate 21 1) = .error .outOfBounds ∧
    ∃ s, forLoop inputStep 20 0
        (((State.initial g0 (List.replicate 21 1)).print "Enter number of processes: ").print
          "Enter Burst Time for each process:\n") = .ok s ∧
      s.out = bannerText ++ promptsText 20 ∧
      inputStep 20 s = .error .outOfBounds) :=
  ⟨⟨by decide, rfl⟩, overrun_beyond_capacity g0 21 (List.replicate 21 1) (by decide) rfl⟩

/-! ## C12: bursts are not validated -/

/-- C12: for `1 ≤ N ≤ 20` and every sequence of `N` integer bursts, of any
sign, the run completes with exit status `0` and the arrays obey the
recurrences of the program (in 32-bit `int` arithmetic); for `N = 2`,
`B = [-1, 2]` it reports `waiting = [0, -1]`. -/
theorem bursts_not_validated (g : Arr → Nat → Int) (N : Nat) (B : List Int)
    (h1 : 1 ≤ N) (h20 : N ≤ 20) (hB : B.length = N) :
    (exitStatus (fcfs g (N : Int) B) = some 0 ∧
      ∃ s, fcfs g (N : Int) B = .ok s ∧ s.mem .waiting 0 = 0 ∧
        (∀ i, 1 ≤ i → i < N →
          s.mem .waiting i = wrap32 (s.mem .waiting (i - 1) + B.getD (i - 1) 0)) ∧
        (∀ i, i < N → s.mem .turnaround i = wrap32 (s.mem .waiting i + B.getD i 0))) ∧
    (exitStatus (fcfs g 2 [-1, 2]) = some 0 ∧
      (fcfs g 2 [-1, 2]).toOption.map (State.report 2) = some
        { burst := [-1, 2], waiting := [0, -1], turnaround := [-1, 1]
          avg_wt := ⟨true, 1 / 2⟩, avg_tat := ⟨false, 0⟩
          out := "Enter number of processes: Enter Burst Time for each process:\nP1: P2: \nProcess\tBurst Time\tWaiting Time\tTurnaround Time\nP1\t-1\t\t0\t\t-1\nP2\t2\t\t-1\t\t1\n\nAverage Waiting Time = -0.50\nAverage Turnaround Time = 0.00\n" }) := by
  have hrun := fcfs_eq g B N h1 h20 hB
  have hex := fcfs_eq g [-1, 2] 2 (by norm_num) (by norm_num) rfl
  simp only [Nat.cast_ofNat] at hex
  refine ⟨⟨by rw [hrun]; rfl, _, hrun, ?_, ?_, ?_⟩, by rw [hex]; rfl, ?_⟩
  · rw [finalState_waiting g B N 0 (by omega)]; rfl
  · intro i hi1 hiN
    obtain ⟨k, rfl⟩ : ∃ k, i = k + 1 := ⟨i - 1, by omega⟩
    rw [finalState_waiting g B N _ hiN, Nat.add_sub_cancel,
      finalState_waiting g B N k (by omega)]
    rfl
  · intro i hiN
    rw [finalState_turnaround g B N _ hiN, finalState_waiting g B N _ hiN]
    rfl
  · rw [hex]
    simp only [Except.toOption, Option.map_some', report_finalState]
    decide!

/-- C12, witness: the statement at `N = 3`, `B = [0, -5, 2]`. -/
theorem bursts_not_validated_witness :
    (1 ≤ 3 ∧ 3 ≤ 20 ∧ [(0 : Int), -5, 2].length = 3) ∧
    ((exitStatus (fcfs g0 ((3 : Nat) : Int) [0, -5, 2]) = some 0 ∧
      ∃ s, fcfs g0 ((3 : Nat) : Int) [0, -5, 2] = .ok s ∧ s.mem .waiting 0 = 0 ∧
        (∀ i, 1 ≤ i → i < 3 →
          s.mem .waiting i = wrap32 (s.mem .waiting (i - 1) + [(0 : Int), -5, 2].getD (i - 1) 0)) ∧
        (∀ i, i < 3 →
          s.mem .turnaround i = wrap32 (s.mem .waiting i + [(0 : Int), -5, 2].getD i 0))) ∧
    (exitStatus (fcfs g0 2 [-1, 2]) = some 0 ∧
      (fcfs g0 2 [-1, 2]).toOption.map (State.report 2) = some
        { burst := [-1, 2], waiting := [0, -1], turnaround := [-1, 1]
          avg_wt := ⟨true, 1 / 2⟩, avg_tat := ⟨false, 0⟩
          out := "Enter number of processes: Enter Burst Time for each process:\nP1: P2: \nProcess\tBurst Time\tWaiting Time\tTurnaround Time\nP1\t-1\t\t0\t\t-1\nP2\t2\t\t-1\t\t1\n\nAverage Waiting Time = -0.50\nAverage Turnaround Time = 0.00\n" })) :=
  ⟨⟨by decide, by decide, rfl⟩,
    bursts_not_validated g0 3 [0, -5, 2] (by decide) (by decide) rfl⟩

/-! ## Sums of the computed values -/

theorem sum_range_getD (B : List Int) (k : Nat) (hk : k ≤ B.length) :
    ∑ i in Finset.range k, B.getD i 0 = (B.take k).sum := by
  induction k with
  | zero => simp
  | succ k ih =>
    have hk' : k < B.length := hk
    rw [Finset.sum_range_succ, ih (by omega), List.sum_take_succ B k hk']
    simp [List.getD_eq_getElem?_getD, hk']

theorem idealWaiting_eq_sum (B : List Int) (i : Nat) (hi : i ≤ B.length) :
    idealWaiting B i = (B.take i).sum := by
  induction i with
  | zero => simp [idealWaiting]
  | succ k ih =>
    have hk : k < B.length := hi
    rw [idealWaiting, ih (by omega), List.sum_take_succ B k hk]
    simp [List.getD_eq_getElem?_getD, hk]

theorem sum_prefix_sums (f : Nat → Int) (N : Nat) :
    ∑ i in Finset.range N, ∑ j in Finset.range i, f j
      = ∑ j in Finset.range N, ((N : Int) - 1 - j) * f j := by
  induction N with
  | zero => simp
  | succ N ih =>
    rw [Finset.sum_range_succ, ih, Finset.sum_range_succ, ← Finset.sum_add_distrib]
    have : ((N + 1 : Nat) : Int) - 1 - (N : Int) = 0 := by push_cast; ring
    rw [this, zero_mul, add_zero]
    apply Finset.sum_congr rfl
    intro j _
    push_cast
    ring

theorem waitingVal_congr (B B' : List Int) (i : Nat) (hi : i ≤ B.length) (hi' : i ≤ B'.length)
    (h : B'.take i = B.take i) : waitingVal B' i = waitingVal B i := by
  rw [waitingVal_eq_wrap_sum B i hi, waitingVal_eq_wrap_sum B' i hi', h]

theorem accF_congr (f f' : Nat → Int) (j : Nat) (h : ∀ i, i < j → f' i = f i) :
    accF f' j = accF f j := by
  induction j with
  | zero => rfl
  | succ k ih => rw [accF, accF, ih (fun i hi => h i (by omega)), h k (by omega)]

theorem take_eq_of_take_eq (B B' : List Int) (i k : Nat) (hik : i ≤ k)
    (h : B'.take k = B.take k) : B'.take i = B.take i := by
  have h1 : (B'.take k).take i = (B.take k).take i := by rw [h]
  rwa [List.take_take, List.take_take, Nat.min_eq_left hik] at h1

/-- Without overflow the program's values are the prefix sums. -/
theorem waitingVal_of_fits (B : List Int) (i : Nat) (hi : i ≤ B.length)
    (h : isInt32 (B.take i).sum) : waitingVal B i = (B.take i).sum := by
  rw [waitingVal_eq_wrap_sum B i hi]
  exact wrap32_of_isInt32 h

theorem turnaroundVal_of_fits (B : List Int) (i : Nat) (hi : i < B.length)
    (h : isInt32 (B.take (i + 1)).sum) : turnaroundVal B i = (B.take (i + 1)).sum := by
  rw [turnaroundVal_eq_wrap_sum B i hi]
  exact wrap32_of_isInt32 h

/-! ## C13: no idle gaps -/

/-- C13 (amended): for `1 ≤ N ≤ 20` and every burst sequence,
`turnaround[i] = waiting[i+1]` for every `i` in `[0, N-2]`, and the last
turnaround `turnaround[N-1]` is the sum of all `N` bursts reduced into the
`int` range; it equals that sum exactly when the sum is representable as an
`int`. -/
theorem no_idle_gaps (g : Arr → Nat → Int) (N : Nat) (B : List Int)
    (h1 : 1 ≤ N) (h20 : N ≤ 20) (hB : B.length = N) :
    ∃ s, fcfs g (N : Int) B = .ok s ∧
      (∀ i, i + 1 < N → s.mem .turnaround i = s.mem .waiting (i + 1)) ∧
      s.mem .turnaround (N - 1) = wrap32 B.sum ∧
      (s.mem .turnaround (N - 1) = B.sum ↔ isInt32 B.sum) := by
  refine ⟨_, fcfs_eq g B N h1 h20 hB, ?_, ?_, ?_⟩
  · intro i hi
    rw [finalState_turnaround g B N i (by omega), finalState_waiting g B N _ hi]
    rfl
  all_goals
    rw [finalState_turnaround g B N _ (by omega), turnaroundVal_eq_wrap_sum B _ (by omega),
      show N - 1 + 1 = N by omega, ← hB, List.take_length]
  exact wrap32_eq_iff _

/-- C13, counterexample: with `N = 2`, `B = [2147483647, 2147483647]` the last
turnaround is `-2`, while the sum of the bursts is `4294967294`. -/
theorem last_turnaround_overflow :
    ∃ s, fcfs g0 2 [2147483647, 2147483647] = .ok s ∧
      s.mem .turnaround 1 = -2 ∧ [(2147483647 : Int), 2147483647].sum = 4294967294 :=
  ⟨_, fcfs_eq g0 _ 2 (by decide) (by decide) rfl, by decide, by decide⟩

/-- C13, witness: the statement at `N = 3`, `B = [4, 3, 1]`. -/
theorem no_idle_gaps_witness :
    (1 ≤ 3 ∧ 3 ≤ 20 ∧ [(4 : Int), 3, 1].length = 3) ∧
    ∃ s, fcfs g0 ((3 : Nat) : Int) [4, 3, 1] = .ok s ∧
      (∀ i, i + 1 < 3 → s.mem .turnaround i = s.mem .waiting (i + 1)) ∧
      s.mem .turnaround (3 - 1) = wrap32 [(4 : Int), 3, 1].sum ∧
      (s.mem .turnaround (3 - 1) = [(4 : Int), 3, 1].sum ↔ isInt32 [(4 : Int), 3, 1].sum) :=
  ⟨⟨by decide, by decide, rfl⟩, no_idle_gaps g0 3 [4, 3, 1] (by decide) (by decide) rfl⟩

theorem finalState_sumInt_waiting (g : Arr → Nat → Int) (B : List Int) (N : Nat) :
    ∑ i in Finset.range N, (finalState g B N).mem .waiting i
      = ∑ i in Finset.range N, waitingVal B i :=
  Finset.sum_congr rfl fun i hi => finalState_waiting g B N i (Finset.mem_range.mp hi)

theorem finalState_sumInt_turnaround (g : Arr → Nat → Int) (B : List Int) (N : Nat) :
    ∑ i in Finset.range N, (finalState g B N).mem .turnaround i
      = ∑ i in Finset.range N, turnaroundVal B i :=
  Finset.sum_congr rfl fun i hi => finalState_turnaround g B N i (Finset.mem_range.mp hi)

theorem sum_waitingVal_weighted (B : List Int) (N : Nat) (hB : B.length = N)
    (hfit : ∀ k, k < N → isInt32 (B.take k).sum) :
    ∑ i in Finset.range N, waitingVal B i
      = ∑ j in Finset.range N, ((N : Int) - 1 - j) * B.getD j 0 := by
  rw [← sum_prefix_sums]
  apply Finset.sum_congr rfl
  intro i hi
  have hi' := Finset.mem_range.mp hi
  rw [waitingVal_of_fits B i (by omega) (hfit i hi'), sum_range_getD B i (by omega)]

theorem sum_turnaroundVal_split (B : List Int) (N : Nat) (hB : B.length = N)
    (hfit : ∀ k, k ≤ N → isInt32 (B.take k).sum) :
    ∑ i in Finset.range N, turnaroundVal B i
      = ∑ i in Finset.range N, waitingVal B i + B.sum := by
  have hs : B.sum = ∑ i in Finset.range N, B.getD i 0 := by
    rw [sum_range_getD B N (by omega), ← hB, List.take_length]
  rw [hs, ← Finset.sum_add_distrib]
  apply Finset.sum_congr rfl
  intro i hi
  have hi' := Finset.mem_range.mp hi
  rw [turnaroundVal_of_fits B i (by omega) (hfit (i + 1) (by omega)),
    waitingVal_of_fits B i (by omega) (hfit i (by omega)), List.sum_take_succ B i (by omega)]
  simp [List.getD_eq_getElem?_getD, show i < B.length by omega]

theorem fits_of_small (B : List Int) (N : Nat) (hB : B.length = N) (h20 : N ≤ 20)
    (hM : ∀ b ∈ B, |b| ≤ 41943) : ∀ k, k ≤ N → isInt32 (B.take k).sum := by
  intro k hk
  have h := abs_le.mp (abs_sum_take_le B 41943 hM k (by omega))
  have hk' : (k : Int) ≤ 20 := by exact_mod_cast (le_trans hk h20)
  constructor <;> nlinarith [h.1, h.2]

theorem avg_wt_small (g : Arr → Nat → Int) (B : List Int) (N : Nat) (h1 : 1 ≤ N) (h20 : N ≤ 20)
    (hB : B.length = N) (hM : ∀ b ∈ B, |b| ≤ 41943) :
    (finalState g B N).avg_wt
      = F32.ofRat false (((∑ i in Finset.range N, waitingVal B i : Int) : ℚ) / N) := by
  have hw : accF (waitingVal B) N = exactF (∑ i in Finset.range N, waitingVal B i) :=
    accF_exact _ (20 * 41943) N
      (fun i hi => (waitingVal_small B 41943 hM (by norm_num) (by norm_num) i (by omega)
        (by omega)).2)
      (by have : (N : Int) ≤ 20 := by exact_mod_cast h20
          nlinarith)
  rw [finalState_avg_wt, hw, avgF_exactF _ N h1]

theorem avg_tat_small (g : Arr → Nat → Int) (B : List Int) (N : Nat) (h1 : 1 ≤ N)
    (h20 : N ≤ 20) (hB : B.length = N) (hM : ∀ b ∈ B, |b| ≤ 41943) :
    (finalState g B N).avg_tat
      = F32.ofRat false (((∑ i in Finset.range N, turnaroundVal B i : Int) : ℚ) / N) := by
  have ht : accF (turnaroundVal B) N = exactF (∑ i in Finset.range N, turnaroundVal B i) :=
    accF_exact _ (20 * 41943) N
      (fun i hi => (turnaroundVal_small B 41943 hM (by norm_num) (by norm_num) i (by omega)
        (by omega)).2)
      (by have : (N : Int) ≤ 20 := by exact_mod_cast h20
          nlinarith)
  rw [finalState_avg_tat, ht, avgF_exactF _ N h1]

/-! ## C14: the total waiting time as a weighted sum -/

/-- C14 (amended): for `1 ≤ N ≤ 20` and a burst sequence `B`:
when no prefix sum of `B` leaves the `int` range, the waiting times add up to
`Σ_j (N-1-j) * B[j]`; when every burst has magnitude at most 41943, the average
waiting time is the binary32 number nearest to `(Σ_j (N-1-j) * B[j]) / N`,
within a relative error of `2 ^ (-24)`; and for every burst sequence the
average waiting time does not depend on the last burst `B[N-1]`. -/
theorem total_waiting_weighted (g : Arr → Nat → Int) (N : Nat) (B : List Int)
    (h1 : 1 ≤ N) (h20 : N ≤ 20) (hB : B.length = N) :
    ∃ s, fcfs g (N : Int) B = .ok s ∧
      ((∀ k, k < N → isInt32 (B.take k).sum) →
        ∑ i in Finset.range N, s.mem .waiting i
          = ∑ j in Finset.range N, ((N : Int) - 1 - j) * B.getD j 0) ∧
      ((∀ b ∈ B, |b| ≤ 41943) →
        s.avg_wt = F32.ofRat false
          (((∑ j in Finset.range N, ((N : Int) - 1 - j) * B.getD j 0 : Int) : ℚ) / N) ∧
        |s.avg_wt.toRat
            - ((∑ j in Finset.range N, ((N : Int) - 1 - j) * B.getD j 0 : Int) : ℚ) / N|
          ≤ |((∑ j in Finset.range N, ((N : Int) - 1 - j) * B.getD j 0 : Int) : ℚ) / N|
            / 2 ^ 24) ∧
      (∀ (g' : Arr → Nat → Int) (B' : List Int), B'.length = N →
        B'.take (N - 1) = B.take (N - 1) →
        ∃ s', fcfs g' (N : Int) B' = .ok s' ∧ s'.avg_wt = s.avg_wt) := by
  refine ⟨_, fcfs_eq g B N h1 h20 hB, ?_, ?_, ?_⟩
  · intro hfit
    rw [finalState_sumInt_waiting, sum_waitingVal_weighted B N hB hfit]
  · intro hM
    have hfit := fits_of_small B N hB h20 hM
    have e : (finalState g B N).avg_wt = F32.ofRat false
        (((∑ j in Finset.range N, ((N : Int) - 1 - j) * B.getD j 0 : Int) : ℚ) / N) := by
      rw [avg_wt_small g B N h1 h20 hB hM,
        sum_waitingVal_weighted B N hB (fun k hk => hfit k (by omega))]
    refine ⟨e, ?_⟩
    rw [e]
    exact ofRat_err _ _
  · intro g' B' hB' htake
    refine ⟨_, fcfs_eq g' B' N h1 h20 hB', ?_⟩
    rw [finalState_avg_wt, finalState_avg_wt]
    congr 1
    apply accF_congr
    intro i hi
    exact waitingVal_congr B B' i (by omega) (by omega)
      (take_eq_of_take_eq B B' i (N - 1) (by omega) htake)

/-- C14, counterexample: with `N = 3`, `B = [2147483647, 1, 0]` the waiting
times add up to `-1`, while `Σ_j (N-1-j) * B[j]` is `4294967295`; with `N = 3`,
`B = [4, 3, 1]` the weighted sum is `11` and the average waiting time computed
is `15379115 / 4194304`, not `11 / 3`. -/
theorem total_waiting_not_weighted :
    (∃ s, fcfs g0 3 [2147483647, 1, 0] = .ok s ∧
      ∑ i in Finset.range 3, s.mem .waiting i = -1 ∧
      ∑ j in Finset.range 3, ((3 : Int) - 1 - j) * [(2147483647 : Int), 1, 0].getD j 0
        = 4294967295) ∧
    (∃ s, fcfs g0 3 [4, 3, 1] = .ok s ∧
      ∑ j in Finset.range 3, ((3 : Int) - 1 - j) * [(4 : Int), 3, 1].getD j 0 = 11 ∧
      s.avg_wt.toRat = 15379115 / 4194304 ∧ s.avg_wt.toRat ≠ 11 / 3) :=
  ⟨⟨_, fcfs_eq g0 _ 3 (by decide) (by decide) rfl, by decide!, by decide!⟩,
    ⟨_, fcfs_eq g0 _ 3 (by decide) (by decide) rfl, by decide!, by decide!, by decide!⟩⟩

/-- C14, witness: the statement at `N = 3`, `B = [4, 3, 1]`, where both inner
conditions hold. -/
theorem total_waiting_weighted_witness :
    (1 ≤ 3 ∧ 3 ≤ 20 ∧ [(4 : Int), 3, 1].length = 3 ∧
      (∀ k, k < 3 → isInt32 ([(4 : Int), 3, 1].take k).sum) ∧
      (∀ b ∈ [(4 : Int), 3, 1], |b| ≤ 41943)) ∧
    ∃ s, fcfs g0 ((3 : Nat) : Int) [4, 3, 1] = .ok s ∧
      ((∀ k, k < 3 → isInt32 ([(4 : Int), 3, 1].take k).sum) →
        ∑ i in Finset.range 3, s.mem .waiting i
          = ∑ j in Finset.range 3, (((3 : Nat) : Int) - 1 - j) * [(4 : Int), 3, 1].getD j 0) ∧
      ((∀ b ∈ [(4 : Int), 3, 1], |b| ≤ 41943) →
        s.avg_wt = F32.ofRat false
          (((∑ j in Finset.range 3,
            (((3 : Nat) : Int) - 1 - j) * [(4 : Int), 3, 1].getD j 0 : Int) : ℚ) / (3 : Nat)) ∧
        |s.avg_wt.toRat
            - ((∑ j in Finset.range 3,
              (((3 : Nat) : Int) - 1 - j) * [(4 : Int), 3, 1].getD j 0 : Int) : ℚ) / (3 : Nat)|
          ≤ |((∑ j in Finset.range 3,
              (((3 : Nat) : Int) - 1 - j) * [(4 : Int), 3, 1].getD j 0 : Int) : ℚ) / (3 : Nat)|
            / 2 ^ 24) ∧
      (∀ (g' : Arr → Nat → Int) (B' : List Int), B'.length = 3 →
        B'.take (3 - 1) = [(4 : Int), 3, 1].take (3 - 1) →
        ∃ s', fcfs g' ((3 : Nat) : Int) B' = .ok s' ∧ s'.avg_wt = s.avg_wt) :=
  ⟨⟨by decide, by decide, rfl, by decide, by decide!⟩,
    total_waiting_weighted g0 3 [4, 3, 1] (by decide) (by decide) rfl⟩

/-! ## C15: turnaround total and mean burst -/

/-- C15 (amended): for `1 ≤ N ≤ 20` and a burst sequence `B`:
when no prefix sum of `B` leaves the `int` range,
`sum(turnaround) = sum(waiting) + sum(B)`, so the exact rational quotients
satisfy `sum(turnaround) / N - sum(waiting) / N = sum(B) / N`; when every burst
has magnitude at most 41943, the two averages the program computes are the
binary32 roundings of these quotients, and their difference is `sum(B) / N` up
to `(|sum(turnaround) / N| + |sum(waiting) / N|) / 2 ^ 24`. -/
theorem turnaround_minus_waiting (g : Arr → Nat → Int) (N : Nat) (B : List Int)
    (h1 : 1 ≤ N) (h20 : N ≤ 20) (hB : B.length = N) :
    ∃ s, fcfs g (N : Int) B = .ok s ∧
      ((∀ k, k ≤ N → isInt32 (B.take k).sum) →
        ∑ i in Finset.range N, s.mem .turnaround i
          = ∑ i in Finset.range N, s.mem .waiting i + B.sum ∧
        (∑ i in Finset.range N, (s.mem .turnaround i : ℚ)) / N
          - (∑ i in Finset.range N, (s.mem .waiting i : ℚ)) / N = (B.sum : ℚ) / N) ∧
      ((∀ b ∈ B, |b| ≤ 41943) →
        s.avg_tat
          = F32.ofRat false ((∑ i in Finset.range N, (s.mem .turnaround i : ℚ)) / N) ∧
        s.avg_wt
          = F32.ofRat false ((∑ i in Finset.range N, (s.mem .waiting i : ℚ)) / N) ∧
        |(s.avg_tat.toRat - s.avg_wt.toRat) - (B.sum : ℚ) / N|
          ≤ (|(∑ i in Finset.range N, (s.mem .turnaround i : ℚ)) / N|
            + |(∑ i in Finset.range N, (s.mem .waiting i : ℚ)) / N|) / 2 ^ 24) := by
  refine ⟨_, fcfs_eq g B N h1 h20 hB, ?_, ?_⟩
  · intro hfit
    have hint : ∑ i in Finset.range N, (finalState g B N).mem .turnaround i
        = ∑ i in Finset.range N, (finalState g B N).mem .waiting i + B.sum := by
      rw [finalState_sumInt_turnaround, finalState_sumInt_waiting,
        sum_turnaroundVal_split B N hB hfit]
    refine ⟨hint, ?_⟩
    have hq := congrArg (Int.cast : Int → ℚ) hint
    simp only [Int.cast_add, Int.cast_sum] at hq
    rw [hq]
    ring
  · intro hM
    have hfit := fits_of_small B N hB h20 hM
    have hsplit := congrArg (Int.cast : Int → ℚ) (sum_turnaroundVal_split B N hB hfit)
    simp only [Int.cast_add, Int.cast_sum] at hsplit
    have et := avg_tat_small g B N h1 h20 hB hM
    have ew := avg_wt_small g B N h1 h20 hB hM
    rw [finalState_sum_turnaround, finalState_sum_waiting]
    refine ⟨et, ew, ?_⟩
    rw [et, ew]
    have e1 := ofRat_err false (((∑ i in Finset.range N, turnaroundVal B i : Int) : ℚ) / N)
    have e2 := ofRat_err false (((∑ i in Finset.range N, waitingVal B i : Int) : ℚ) / N)
    set qt : ℚ := ((∑ i in Finset.range N, turnaroundVal B i : Int) : ℚ) / N with hqt
    set qw : ℚ := ((∑ i in Finset.range N, waitingVal B i : Int) : ℚ) / N with hqw
    have hdiff : (B.sum : ℚ) / N = qt - qw := by
      rw [hqt, hqw]
      simp only [Int.cast_sum]
      rw [hsplit]
      ring
    rw [hdiff]
    calc |(F32.ofRat false qt).toRat - (F32.ofRat false qw).toRat - (qt - qw)|
        = |((F32.ofRat false qt).toRat - qt) - ((F32.ofRat false qw).toRat - qw)| := by
          congr 1; ring
      _ ≤ |(F32.ofRat false qt).toRat - qt| + |(F32.ofRat false qw).toRat - qw| := abs_sub _ _
      _ ≤ |qt| / 2 ^ 24 + |qw| / 2 ^ 24 := add_le_add e1 e2
      _ = (|qt| + |qw|) / 2 ^ 24 := by ring

/-- C15, counterexample: with `N = 2`, `B = [2147483647, 1]` the turnaround
times add up to `-1`, while `sum(waiting) + sum(B)` is `4294967295`; with
`N = 3`, `B = [4, 3, 1]` the computed averages differ by `11184811 / 4194304`,
not by `sum(B) / N = 8 / 3`. -/
theorem turnaround_minus_waiting_inexact :
    (∃ s, fcfs g0 2 [2147483647, 1] = .ok s ∧
      ∑ i in Finset.range 2, s.mem .turnaround i = -1 ∧
      ∑ i in Finset.range 2, s.mem .waiting i + [(2147483647 : Int), 1].sum = 4294967295) ∧
    (∃ s, fcfs g0 3 [4, 3, 1] = .ok s ∧
      s.avg_tat.toRat - s.avg_wt.toRat = 11184811 / 4194304 ∧
      (([(4 : Int), 3, 1].sum : Int) : ℚ) / 3 = 8 / 3 ∧
      s.avg_tat.toRat - s.avg_wt.toRat ≠ (([(4 : Int), 3, 1].sum : Int) : ℚ) / 3) :=
  ⟨⟨_, fcfs_eq g0 _ 2 (by decide) (by decide) rfl, by decide!, by decide!⟩,
    ⟨_, fcfs_eq g0 _ 3 (by decide) (by decide) rfl, by decide!, by decide!, by decide!⟩⟩

/-- C15, witness: the statement at `N = 3`, `B = [4, 3, 1]`, where both inner
conditions hold. -/
theorem turnaround_minus_waiting_witness :
    (1 ≤ 3 ∧ 3 ≤ 20 ∧ [(4 : Int), 3, 1].length = 3 ∧
      (∀ k, k ≤ 3 → isInt32 ([(4 : Int), 3, 1].take k).sum) ∧
      (∀ b ∈ [(4 : Int), 3, 1], |b| ≤ 41943)) ∧
    ∃ s, fcfs g0 ((3 : Nat) : Int) [4, 3, 1] = .ok s ∧
      ((∀ k, k ≤ 3 → isInt32 ([(4 : Int), 3, 1].take k).sum) →
        ∑ i in Finset.range 3, s.mem .turnaround i
          = ∑ i in Finset.range 3, s.mem .waiting i + [(4 : Int), 3, 1].sum ∧
        (∑ i in Finset.range 3, (s.mem .turnaround i : ℚ)) / (3 : Nat)
          - (∑ i in Finset.range 3, (s.mem .waiting i : ℚ)) / (3 : Nat)
          = ([(4 : Int), 3, 1].sum : ℚ) / (3 : Nat)) ∧
      ((∀ b ∈ [(4 : Int), 3, 1], |b| ≤ 41943) →
        s.avg_tat
          = F32.ofRat false ((∑ i in Finset.range 3, (s.mem .turnaround i : ℚ)) / (3 : Nat)) ∧
        s.avg_wt
          = F32.ofRat false ((∑ i in Finset.range 3, (s.mem .waiting i : ℚ)) / (3 : Nat)) ∧
        |(s.avg_tat.toRat - s.avg_wt.toRat) - ([(4 : Int), 3, 1].sum : ℚ) / (3 : Nat)|
          ≤ (|(∑ i in Finset.range 3, (s.mem .turnaround i : ℚ)) / (3 : Nat)|
            + |(∑ i in Finset.range 3, (s.mem .waiting i : ℚ)) / (3 : Nat)|) / 2 ^ 24) :=
  ⟨⟨by decide, by decide, rfl, by decide, by decide!⟩,
    turnaround_minus_waiting g0 3 [4, 3, 1] (by decide) (by decide) rfl⟩

/-! ## C16: a range of bursts without overflow -/

/-- C16: for `1 ≤ N ≤ 20` and bursts each in `[1, 107374182]`, every
`waiting[i]` and `turnaround[i]` lies in `[0, 2 ^ 31 - 1]`, no addition of the
waiting and turnaround loops leaves the `int` range, and the values computed
with 32-bit wrap-around arithmetic are those of the same recurrences over the
unbounded integers. -/
theorem no_overflow_in_range (g : Arr → Nat → Int) (N : Nat) (B : List Int)
    (h1 : 1 ≤ N) (h20 : N ≤ 20) (hB : B.length = N)
    (hR : ∀ b ∈ B, 1 ≤ b ∧ b ≤ 107374182) :
    ∃ s, fcfs g (N : Int) B = .ok s ∧ ∀ i, i < N →
      (0 ≤ s.mem .waiting i ∧ s.mem .waiting i ≤ 2147483647) ∧
      (0 ≤ s.mem .turnaround i ∧ s.mem .turnaround i ≤ 2147483647) ∧
      (1 ≤ i → isInt32 (s.mem .waiting (i - 1) + B.getD (i - 1) 0)) ∧
      isInt32 (s.mem .waiting i + B.getD i 0) ∧
      s.mem .waiting i = idealWaiting B i ∧
      s.mem .turnaround i = idealTurnaround B i := by
  refine ⟨_, fcfs_eq g B N h1 h20 hB, ?_⟩
  have hM : ∀ b ∈ B, |b| ≤ 107374182 := fun b hb => by
    have := hR b hb
    rw [abs_le]; constructor <;> omega
  have hpos : ∀ b ∈ B, 0 < b := fun b hb => by have := hR b hb; omega
  have hw : ∀ k, k ≤ N → waitingVal B k = (B.take k).sum ∧ 0 ≤ (B.take k).sum ∧
      (B.take k).sum ≤ 2147483640 := by
    intro k hk
    have h := waitingVal_small B 107374182 hM (by norm_num) (by norm_num) k (by omega) (by omega)
    have h2 := abs_le.mp h.2
    exact ⟨h.1, sum_take_nonneg B hpos k, by rw [← h.1]; omega⟩
  intro i hiN
  have hgetD : B.getD i 0 = B[i] := by simp [List.getD_eq_getElem?_getD, show i < B.length by omega]
  have hsucc : (B.take (i + 1)).sum = (B.take i).sum + B[i] := List.sum_take_succ B i (by omega)
  obtain ⟨w0, w1, w2⟩ := hw i (by omega)
  obtain ⟨t0, t1, t2⟩ := hw (i + 1) (by omega)
  have ht : turnaroundVal B i = (B.take (i + 1)).sum := t0
  rw [finalState_waiting g B N i hiN, finalState_turnaround g B N i hiN, w0, ht,
    idealWaiting_eq_sum B i (by omega)]
  refine ⟨⟨w1, by omega⟩, ⟨t1, by omega⟩, ?_, ?_, rfl, ?_⟩
  · intro hi1
    obtain ⟨k, rfl⟩ : ∃ k, i = k + 1 := ⟨i - 1, by omega⟩
    obtain ⟨v0, v1, v2⟩ := hw k (by omega)
    have hk : B.getD k 0 = B[k] := by
      simp [List.getD_eq_getElem?_getD, show k < B.length by omega]
    have hks : (B.take (k + 1)).sum = (B.take k).sum + B[k] := List.sum_take_succ B k (by omega)
    rw [Nat.add_sub_cancel, finalState_waiting g B N k (by omega), v0, hk]
    constructor <;> omega
  · rw [hgetD]
    constructor <;> omega
  · rw [idealTurnaround, idealWaiting_eq_sum B i (by omega), hsucc, hgetD]

/-- C16, witness: the statement at the maximum `N = 20` with every burst at the
upper bound `107374182`. -/
theorem no_overflow_in_range_witness :
    (1 ≤ 20 ∧ 20 ≤ 20 ∧ (List.replicate 20 (107374182 : Int)).length = 20 ∧
      ∀ b ∈ List.replicate 20 (107374182 : Int), 1 ≤ b ∧ b ≤ 107374182) ∧
    ∃ s, fcfs g0 ((20 : Nat) : Int) (List.replicate 20 107374182) = .ok s ∧ ∀ i, i < 20 →
      (0 ≤ s.mem .waiting i ∧ s.mem .waiting i ≤ 2147483647) ∧
      (0 ≤ s.mem .turnaround i ∧ s.mem .turnaround i ≤ 2147483647) ∧
      (1 ≤ i → isInt32 (s.mem .waiting (i - 1) + (List.replicate 20 107374182).getD (i - 1) 0)) ∧
      isInt32 (s.mem .waiting i + (List.replicate 20 107374182).getD i 0) ∧
      s.mem .waiting i = idealWaiting (List.replicate 20 107374182) i ∧
      s.mem .turnaround i = idealTurnaround (List.replicate 20 107374182) i :=
  ⟨⟨by decide, by decide, rfl, by decide⟩,
    no_overflow_in_range g0 20 (List.replicate 20 107374182) (by decide) (by decide) rfl
      (by decide)⟩

/-! ## C17: monotonicity and dependence on earlier bursts only -/

/-- C17: for `1 ≤ N ≤ 20` and positive bursts whose total fits in an `int`,
`waiting[i] < waiting[i+1]` and `turnaround[i] < turnaround[i+1]` for every `i`
in `[0, N-2]`; and a run on any burst sequence that agrees with `B` on its
first `i` entries computes the same `waiting[i]`. -/
theorem increasing_and_causal (g : Arr → Nat → Int) (N : Nat) (B : List Int)
    (h1 : 1 ≤ N) (h20 : N ≤ 20) (hB : B.length = N) (hpos : ∀ b ∈ B, 0 < b)
    (hfit : B.sum ≤ 2147483647) :
    ∃ s, fcfs g (N : Int) B = .ok s ∧
      (∀ i, i + 1 < N → s.mem .waiting i < s.mem .waiting (i + 1) ∧
        s.mem .turnaround i < s.mem .turnaround (i + 1)) ∧
      (∀ (g' : Arr → Nat → Int) (B' : List Int) (i : Nat), B'.length = N → i < N →
        B'.take i = B.take i →
        ∃ s', fcfs g' (N : Int) B' = .ok s' ∧ s'.mem .waiting i = s.mem .waiting i) := by
  refine ⟨_, fcfs_eq g B N h1 h20 hB, ?_, ?_⟩
  · intro i hi
    have hv : ∀ k, k ≤ N → waitingVal B k = (B.take k).sum := by
      intro k hk
      have a1 := sum_take_le_sum B hpos k
      have a2 := sum_take_nonneg B hpos k
      exact waitingVal_of_fits B k (by omega) ⟨by omega, by omega⟩
    have t0 : turnaroundVal B i = (B.take (i + 1)).sum := hv (i + 1) (by omega)
    have t1 : turnaroundVal B (i + 1) = (B.take (i + 1 + 1)).sum := hv (i + 1 + 1) (by omega)
    have s0 : (B.take (i + 1)).sum = (B.take i).sum + B[i] := List.sum_take_succ B i (by omega)
    have s1 : (B.take (i + 1 + 1)).sum = (B.take (i + 1)).sum + B[i + 1] :=
      List.sum_take_succ B (i + 1) (by omega)
    have p0 : 0 < B[i] := hpos _ (List.getElem_mem _)
    have p1 : 0 < B[i + 1] := hpos _ (List.getElem_mem _)
    rw [finalState_waiting g B N i (by omega), finalState_waiting g B N (i + 1) hi,
      finalState_turnaround g B N i (by omega), finalState_turnaround g B N (i + 1) hi,
      hv i (by omega), hv (i + 1) (by omega), t0, t1]
    constructor <;> omega
  · intro g' B' i hB' hi htake
    refine ⟨_, fcfs_eq g' B' N h1 h20 hB', ?_⟩
    rw [finalState_waiting g' B' N i hi, finalState_waiting g B N i hi]
    exact waitingVal_congr B B' i (by omega) (by omega) htake

/-- C17, witness: the statement at `N = 3`, `B = [4, 3, 1]`. -/
theorem increasing_and_causal_witness :
    (1 ≤ 3 ∧ 3 ≤ 20 ∧ [(4 : Int), 3, 1].length = 3 ∧ (∀ b ∈ [(4 : Int), 3, 1], 0 < b) ∧
      [(4 : Int), 3, 1].sum ≤ 2147483647) ∧
    ∃ s, fcfs g0 ((3 : Nat) : Int) [4, 3, 1] = .ok s ∧
      (∀ i, i + 1 < 3 → s.mem .waiting i < s.mem .waiting (i + 1) ∧
        s.mem .turnaround i < s.mem .turnaround (i + 1)) ∧
      (∀ (g' : Arr → Nat → Int) (B' : List Int) (i : Nat), B'.length = 3 → i < 3 →
        B'.take i = [(4 : Int), 3, 1].take i →
        ∃ s', fcfs g' ((3 : Nat) : Int) B' = .ok s' ∧ s'.mem .waiting i = s.mem .waiting i) :=
  ⟨⟨by decide, by decide, rfl, by decide, by decide⟩,
    increasing_and_causal g0 3 [4, 3, 1] (by decide) (by decide) rfl (by decide) (by decide)⟩

end Fcfs
